import Mathlib

/-!
# Verification of the address-to-identifier reconciliation core

Shallow embedding of `restructure_s3_with_csv.py`: the address normalizer
(`normalize_address`), the similarity scorer (`similarity_score`, which calls
Python's `difflib.SequenceMatcher(None, a.lower(), b.lower()).ratio()`), the
reference-index loader (`load_csv_mapping`), the match resolver
(`find_best_match`) and the plan executor (`execute_restructure`,
`rename_s3_folder`, `delete_s3_folder`).

Python strings are modelled as `String`/`List Char` (ASCII case mapping),
Python floats as `ℚ` (every quantity produced by the program is a ratio of
machine integers), Python dicts as insertion-ordered association lists, and
the S3 bucket as a list of object keys together with failure oracles for the
fallible copy/delete calls (an oracle answering `true` models `boto3`
raising on that call).
-/

namespace RosieSync

/-! ## Python string primitives -/

/-- Python `str.replace(pat, rep)` on character lists: non-overlapping
replacement scanning left to right.  The fuel argument only drives
structural recursion; each step consumes at least one character of `s`
(our call sites never pass an empty `pat`), so `fuel = s.length` never
runs out. -/
def replaceAllF (pat rep : List Char) : Nat → List Char → List Char
  | 0, s => s
  | _ + 1, [] => []
  | fuel + 1, c :: rest =>
    if pat ≠ [] ∧ pat.isPrefixOf (c :: rest) then
      rep ++ replaceAllF pat rep fuel ((c :: rest).drop pat.length)
    else
      c :: replaceAllF pat rep fuel rest

def replaceAll (pat rep s : List Char) : List Char :=
  replaceAllF pat rep s.length s

/-- Python `s.replace(pat, rep)` at `String` level. -/
def pyReplace (s pat rep : String) : String :=
  ⟨replaceAll pat.data rep.data s.data⟩

/-- The whitespace class of Python's `str.split()` / `str.strip()`. -/
def pyIsSpace (c : Char) : Bool :=
  c = ' ' ∨ c = '\t' ∨ c = '\n' ∨ c = '\r' ∨ c = '\x0b' ∨ c = '\x0c'

/-- Python `str.split()` (split on whitespace runs, dropping empty words). -/
def pySplitGo : List Char → List Char → List (List Char)
  | [], cur => if cur = [] then [] else [cur.reverse]
  | c :: rest, cur =>
    if pyIsSpace c then
      if cur = [] then pySplitGo rest [] else cur.reverse :: pySplitGo rest []
    else
      pySplitGo rest (c :: cur)

def pySplit (s : List Char) : List (List Char) := pySplitGo s []

/-- Python `' '.join(words)`. -/
def joinSpace (ws : List (List Char)) : List Char := List.intercalate [' '] ws

/-- Python `str.strip()`. -/
def pyStrip (s : List Char) : List Char :=
  ((s.dropWhile pyIsSpace).reverse.dropWhile pyIsSpace).reverse

def pyStripStr (s : String) : String := ⟨pyStrip s.data⟩

/-- Python `re.sub(r'\([^)]*\)', '', s)`: delete every group running from a
`(` to the first `)` after it; a `(` with no later `)` is kept.  Fuel is
`s.length`; each step consumes at least one character. -/
def removeParensF : Nat → List Char → List Char
  | 0, s => s
  | _ + 1, [] => []
  | fuel + 1, c :: rest =>
    if c = '(' ∧ rest.contains ')' then
      removeParensF fuel (rest.dropWhile (fun d => d ≠ ')')).tail
    else
      c :: removeParensF fuel rest

def removeParens (s : List Char) : List Char := removeParensF s.length s

/-- The apostrophe character, as used in the `Downt'` pattern. -/
def apos : Char := Char.ofNat 39

/-! ## `normalize_address` (source lines 23-51) -/

/-- Source `normalize_address`: the exact chain of Python
`str.replace` calls, then the parenthetical `re.sub`, the `#`/`,` strip and
whitespace collapapse via `' '.join(s.split())` followed by `.strip()`. -/
def normalizeAddress (address : String) : String :=
  -- Remove common suffixes
  let n := pyReplace (pyReplace (pyReplace address " copy" "") "**" "") "*" ""
  -- Standardize street abbreviations (aggressive)
  let n := pyReplace (pyReplace (pyReplace n " St," " Street,") " St " " Street ") " St." " Street"
  let n := pyReplace (pyReplace (pyReplace n " Ave," " Avenue,") " Ave " " Avenue ") " Ave." " Avenue"
  let n := pyReplace (pyReplace n " Brdwy" " Broadway") " Blvd" " Boulevard"
  let n := pyReplace n " Pl" " Place"
  -- Standardize direction abbreviations
  let n := pyReplace (pyReplace n " E " " East ") " W " " West "
  let n := pyReplace (pyReplace n " N " " North ") " S " " South "
  -- Standardize location abbreviations
  let n := pyReplace (pyReplace (pyReplace n "Bklyn" "Brooklyn") "Qns" "Queens") "SI" "Staten Island"
  let n := pyReplace (pyReplace n "Hts" "Heights") ("Downt".push apos) "Downtown"
  let n := pyReplace (pyReplace n "Un Sq" "Union Square") "UnSq" "Union Square"
  -- Remove parenthetical details for broader matching
  let n : String := ⟨removeParens n.data⟩
  -- Remove special characters
  let n := pyReplace (pyReplace n "#" "") "," ""
  -- Remove extra spaces
  let n : String := ⟨joinSpace (pySplit n.data)⟩
  ⟨pyStrip n.data⟩

/-! ## `similarity_score` (source lines 53-55)

The source computes `SequenceMatcher(None, str1.lower(), str2.lower()).ratio()`.
We embed CPython's `difflib.SequenceMatcher` for `isjunk = None` exactly:
`b2j` maps an element to its (ascending) positions in `b`, minus "popular"
elements when `autojunk` fires (`len(b) >= 200` and the element occurs more
than `len(b) // 100 + 1` times); with `isjunk = None` the junk set `bjunk`
is empty, so `isbjunk` is constantly false and the two junk-extension loops
of `find_longest_match` never run — they are therefore omitted, while the
non-junk extension loops are kept. -/

/-- ASCII case mapping of Python `str.lower()`. -/
def pyLowerChar (c : Char) : Char :=
  if h : 65 ≤ c.toNat ∧ c.toNat ≤ 90 then
    ⟨c.val + 32, by
      have h2 : c.val.toNat ≤ 90 := h.2
      have h32 : (c.val + 32).toNat = c.val.toNat + 32 := by
        rw [UInt32.toNat_add]
        have h1 : ((32 : UInt32)).toNat = 32 := rfl
        have hs : UInt32.size = 4294967296 := rfl
        rw [h1, hs]
        exact Nat.mod_eq_of_lt (by omega)
      show (c.val + 32).toNat.isValidChar
      rw [h32]
      exact Or.inl (by omega)⟩
  else c

def pyLowerL (s : List Char) : List Char := s.map pyLowerChar

/-- Number of occurrences of element `c` in `b`. -/
def countChar (b : List Char) (c : Char) : Nat := (b.filter (fun d => d = c)).length

/-- The `autojunk` purge of `__chain_b`: with `isjunk = None`, an element is
dropped from `b2j` iff `len(b) >= 200` and it occurs more than
`len(b) // 100 + 1` times in `b`. -/
def isPopular (b : List Char) (c : Char) : Bool :=
  200 ≤ b.length ∧ b.length / 100 + 1 < countChar b c

/-- Ascending list of positions of `c` in `b`. -/
def posAll (b : List Char) (c : Char) : List Nat :=
  (List.range b.length).filter (fun j => b.getD j ' ' = c)

/-- Model of `b2j.get(c, [])` after the autojunk purge. -/
def b2jOf (b : List Char) (c : Char) : List Nat :=
  if isPopular b c then [] else posAll b c

/-- The running best block `(besti, bestj, bestsize)` of `find_longest_match`. -/
structure Flm where
  bi : Nat
  bj : Nat
  sz : Nat
deriving DecidableEq, Repr

/-- Inner loop of `find_longest_match`: for each `j` (ascending positions of
`a[i]` in `b`, already restricted to `[blo, bhi)`), set
`newj2len[j] = j2len.get(j-1, 0) + 1` — reading the map `m` of the previous
outer iteration — and update the best block on strict improvement.
Finite maps are total functions defaulting to `0`; Python's `j2len.get(-1, 0)`
is the `j = 0` case. -/
def flmInner (m : Nat → Nat) (i : Nat) : List Nat → (Nat → Nat) → Flm → ((Nat → Nat) × Flm)
  | [], nm, best => (nm, best)
  | j :: js, nm, best =>
    let k := (if j = 0 then 0 else m (j - 1)) + 1
    let nm2 : Nat → Nat := fun x => if x = j then k else nm x
    let best2 := if best.sz < k then ⟨i + 1 - k, j + 1 - k, k⟩ else best
    flmInner m i js nm2 best2

/-- Outer loop of `find_longest_match` over `i ∈ range(alo, ahi)`; the fuel
counts the remaining iterations, `ahi - alo` at the top call. -/
def flmOuter (a b : List Char) (blo bhi : Nat) : Nat → Nat → (Nat → Nat) → Flm → Flm
  | _, 0, _, best => best
  | i, c + 1, m, best =>
    let js := (b2jOf b (a.getD i ' ')).filter (fun j => decide (blo ≤ j) && decide (j < bhi))
    let r := flmInner m i js (fun _ => 0) best
    flmOuter a b blo bhi (i + 1) c r.1 r.2

/-- Backward extension loop (`while besti > alo and bestj > blo and
a[besti-1] == b[bestj-1]`); each step decrements `besti`, so fuel `besti`
suffices (at fuel `0` the guard `alo < besti` is false anyway). -/
def extendBack (a b : List Char) (alo blo : Nat) : Nat → Flm → Flm
  | 0, st => st
  | f + 1, st =>
    if alo < st.bi ∧ blo < st.bj ∧ a.getD (st.bi - 1) ' ' = b.getD (st.bj - 1) ' ' then
      extendBack a b alo blo f ⟨st.bi - 1, st.bj - 1, st.sz + 1⟩
    else st

/-- Forward extension loop (`while besti+bestsize < ahi and bestj+bestsize < bhi
and a[besti+bestsize] == b[bestj+bestsize]`); each step shrinks
`ahi - (besti + bestsize)`, the fuel passed at the call site. -/
def extendFwd (a b : List Char) (ahi bhi : Nat) : Nat → Flm → Flm
  | 0, st => st
  | f + 1, st =>
    if st.bi + st.sz < ahi ∧ st.bj + st.sz < bhi ∧
        a.getD (st.bi + st.sz) ' ' = b.getD (st.bj + st.sz) ' ' then
      extendFwd a b ahi bhi f ⟨st.bi, st.bj, st.sz + 1⟩
    else st

/-- Model of `find_longest_match(alo, ahi, blo, bhi)` for `isjunk = None`. -/
def findLongestMatch (a b : List Char) (alo ahi blo bhi : Nat) : Flm :=
  let s1 := flmOuter a b blo bhi alo (ahi - alo) (fun _ => 0) ⟨alo, blo, 0⟩
  let s2 := extendBack a b alo blo s1.bi s1
  extendFwd a b ahi bhi (ahi - (s2.bi + s2.sz)) s2

/-- Total size of the matching blocks of `get_matching_blocks` on the region
`a[alo:ahi] × b[blo:bhi]` (the divide-and-conquer around each longest match;
merging of adjacent blocks and the final sentinel do not change the sum).
The recursion depth is bounded by the region perimeter, so the fuel passed
by `matchTotal` never runs out. -/
def mtF (a b : List Char) : Nat → Nat → Nat → Nat → Nat → Nat
  | 0, _, _, _, _ => 0
  | f + 1, alo, ahi, blo, bhi =>
    let st := findLongestMatch a b alo ahi blo bhi
    if st.sz = 0 then 0
    else
      (if alo < st.bi ∧ blo < st.bj then mtF a b f alo st.bi blo st.bj else 0)
      + st.sz
      + (if st.bi + st.sz < ahi ∧ st.bj + st.sz < bhi then
          mtF a b f (st.bi + st.sz) ahi (st.bj + st.sz) bhi else 0)

/-- Total `matches`: the sum of block sizes over the whole of `a` and `b`. -/
def matchTotal (a b : List Char) : Nat :=
  mtF a b (a.length + b.length + 1) 0 a.length 0 b.length

/-- Model of `_calculate_ratio(matches, len(a) + len(b))`: `2M/T`, and `1.0` when both
sequences are empty.  Written with `mkRat` (the fraction `2M / T` in lowest
terms, an equality proved by `ratioQ_eq_div` below) so that the value is
kernel-computable. -/
def ratioQ (a b : List Char) : ℚ :=
  if a.length + b.length = 0 then 1
  else mkRat (2 * (matchTotal a b : Int)) (a.length + b.length)

/-- Source `similarity_score(str1, str2)`:
`SequenceMatcher(None, str1.lower(), str2.lower()).ratio()`. -/
def similarityScore (str1 str2 : String) : ℚ :=
  ratioQ (pyLowerL str1.data) (pyLowerL str2.data)

/-! ## Python dicts as insertion-ordered association lists -/

/-- Dict `d[k]` lookup (`None` when absent). -/
def dictGet (d : List (String × String)) (k : String) : Option String :=
  (d.find? (fun p => p.1 = k)).map (fun p => p.2)

/-- Dict update `d[k] = v`: overwrite in place if the key exists (Python keeps the
original insertion position), else append. -/
def dictSet (d : List (String × String)) (k : String) (v : String) : List (String × String) :=
  if d.any (fun p => p.1 = k) then
    d.map (fun p => if p.1 = k then (k, v) else p)
  else d ++ [(k, v)]

/-! ## `load_csv_mapping` (source lines 57-71)

A CSV row is modelled as the pair of the two consulted columns:
`(row.get('Deal - ID', ''), row.get('Deal - Neighborhood (address details)', ''))`. -/

/-- Model of `address.replace('**', '').replace('*', '')`. -/
def cleanAddr (address : String) : String :=
  pyReplace (pyReplace address "**" "") "*" ""

/-- Source `load_csv_mapping`: strip both fields, skip rows with an empty id or
address, key the mapping by the star-stripped address, last write wins. -/
def loadCsvMapping (rows : List (String × String)) : List (String × String) :=
  rows.foldl
    (fun mapping row =>
      let dealId := pyStripStr row.1
      let address := pyStripStr row.2
      if dealId ≠ "" ∧ address ≠ "" then dictSet mapping (cleanAddr address) dealId
      else mapping)
    []

/-! ## `find_best_match` (source lines 73-106) -/

/-- The `if manual_overrides and folder_name in manual_overrides` test plus
the `manual_overrides[folder_name]` read (an empty dict is falsy). -/
def overrideHit (manualOverrides : Option (List (String × String))) (folderName : String) :
    Option String :=
  match manualOverrides with
  | none => none
  | some ov => if ov = [] then none else dictGet ov folderName

/-- One step of the fuzzy-scan loop: track the best score (strict
improvement), the corresponding deal id and the matched CSV address. -/
def bestStep (normalizedFolder : String) (acc : Option String × ℚ × Option String)
    (entry : String × String) : Option String × ℚ × Option String :=
  let score := similarityScore normalizedFolder (normalizeAddress entry.1)
  if acc.2.1 < score then (some entry.2, score, some entry.1) else acc

/-- Source `find_best_match(folder_name, csv_mapping, manual_overrides)`, returning
the Python triple `(deal_id, score, matched)` where `matched` is the string
`"manual_deletion"`, `"manual_override"`, `"exact"`, the best-matching CSV
address, or `None`. -/
def findBestMatch (folderName : String) (csvMapping : List (String × String))
    (manualOverrides : Option (List (String × String))) :
    Option String × ℚ × Option String :=
  match overrideHit manualOverrides folderName with
  | some dealId =>
    if dealId = "DELETE" then (some "DELETE", 1, some "manual_deletion")
    else (some dealId, 1, some "manual_override")
  | none =>
    let normalizedFolder := normalizeAddress folderName
    match dictGet csvMapping normalizedFolder with
    | some d => (some d, 1, some "exact")
    | none =>
      let best := csvMapping.foldl (bestStep normalizedFolder) (none, 0, none)
      -- `best_score >= 0.7` (the literal `0.7`, written as a kernel-computable rational)
      if mkRat 7 10 ≤ best.2.1 then best else (none, 0, none)

/-! ## The S3 plan executor (source lines 125-158, 216-237, 274-315)

The bucket is a list of object keys; `copy_object` inserts the destination
key, `delete_object` removes a key.  The oracles `fC`/`fD` tell, per source
key, whether the corresponding `boto3` call raises; a raised exception is
the `exn` constructor, carrying the bucket state at the moment of the raise
(mutations already performed persist). -/

/-- Result of running a piece of the executor: a returned value or a raised
exception, together with the bucket state. -/
inductive SRes (α : Type) where
  | ok : α → List String → SRes α
  | exn : List String → SRes α
deriving DecidableEq, Repr

/-- Prefix `'Neighborhood Listing Images/{neighborhood}/{name}/'`. -/
def folderRoot (neighborhood name : String) : String :=
  "Neighborhood Listing Images/" ++ neighborhood ++ "/" ++ name ++ "/"

/-- The paginated `list_objects_v2` scan: every key under the given prefix. -/
def listUnder (st : List String) (pre : String) : List String :=
  st.filter (fun k => pre.data.isPrefixOf k.data)

/-- Model of `copy_object` target-state: S3 copy overwrites, so presence-wise this
inserts the destination key. -/
def insertKey (st : List String) (k : String) : List String :=
  if k ∈ st then st else st ++ [k]

/-- Model of `delete_object` target-state. -/
def removeKey (st : List String) (k : String) : List String :=
  st.filter (fun x => x ≠ k)

/-- The copy loop of `rename_s3_folder`: for each listed key, compute
`new_key = new_prefix + old_key.replace(old_prefix, '')` and copy; a failing
copy raises immediately. -/
def copyAllKeys (fC : String → Bool) (oldRoot newRoot : String) :
    List String → List String → SRes Unit
  | [], st => .ok () st
  | k :: ks, st =>
    if fC k then .exn st
    else copyAllKeys fC oldRoot newRoot ks (insertKey st (newRoot ++ pyReplace k oldRoot ""))

/-- The delete loop (of `rename_s3_folder` and `delete_s3_folder`). -/
def deleteAllKeys (fD : String → Bool) : List String → List String → SRes Unit
  | [], st => .ok () st
  | k :: ks, st =>
    if fD k then .exn st
    else deleteAllKeys fD ks (removeKey st k)

/-- Source `rename_s3_folder(neighborhood, old_name, new_name)`: list the source
folder, return `False` if empty, otherwise copy every object and only then
delete every source object. -/
def renameS3Folder (fC fD : String → Bool) (st : List String)
    (neighborhood oldName newName : String) : SRes Bool :=
  let oldRoot := folderRoot neighborhood oldName
  let newRoot := folderRoot neighborhood newName
  let objs := listUnder st oldRoot
  if objs = [] then .ok false st
  else
    match copyAllKeys fC oldRoot newRoot objs st with
    | .exn st1 => .exn st1
    | .ok _ st1 =>
      match deleteAllKeys fD objs st1 with
      | .exn st2 => .exn st2
      | .ok _ st2 => .ok true st2

/-- Source `delete_s3_folder(neighborhood, folder_name)`. -/
def deleteS3Folder (fD : String → Bool) (st : List String)
    (neighborhood name : String) : SRes Bool :=
  let root := folderRoot neighborhood name
  let objs := listUnder st root
  if objs = [] then .ok false st
  else
    match deleteAllKeys fD objs st with
    | .exn st1 => .exn st1
    | .ok _ st1 => .ok true st1

/-- One entry of the `all_mappings` dict built by `analyze_and_map`. -/
structure MapEntry where
  dealId : String
  score : ℚ
  matchedAddress : String
deriving DecidableEq, Repr

/-- Forget the `True`/`False` return of the storage helpers (the executor
only prints it). -/
def dropB (r : SRes Bool) : SRes Unit :=
  match r with
  | .ok _ st => .ok () st
  | .exn st => .exn st

/-- The body of the executor's inner loop for one `(old_name, mapping)` pair:
skip unmapped folders, skip low-confidence matches unless they came from a
manual override or manual deletion, and otherwise delete or rename. -/
def execOneFolder (fC fD : String → Bool) (neighborhood : String) (st : List String)
    (p : String × Option MapEntry) : SRes Unit :=
  match p.2 with
  | none => .ok () st
  | some m =>
    -- `mapping['score'] < 0.8 and mapping['matched_address'] not in
    -- ['manual_override', 'manual_deletion']`
    if m.score < mkRat 8 10 ∧ m.matchedAddress ≠ "manual_override" ∧
        m.matchedAddress ≠ "manual_deletion" then
      .ok () st
    else if m.dealId = "DELETE" then dropB (deleteS3Folder fD st neighborhood p.1)
    else dropB (renameS3Folder fC fD st neighborhood p.1 m.dealId)

/-- The inner loop over a neighborhood's folders; an uncaught exception
aborts the loop. -/
def execFolders (fC fD : String → Bool) (neighborhood : String) :
    List (String × Option MapEntry) → List String → SRes Unit
  | [], st => .ok () st
  | p :: ps, st =>
    match execOneFolder fC fD neighborhood st p with
    | .ok _ st1 => execFolders fC fD neighborhood ps st1
    | .exn st1 => .exn st1

/-- The outer loop over neighborhoods. -/
def execNeighborhoods (fC fD : String → Bool) :
    List (String × List (String × Option MapEntry)) → List String → SRes Unit
  | [], st => .ok () st
  | (n, folders) :: rest, st =>
    match execFolders fC fD n folders st with
    | .ok _ st1 => execNeighborhoods fC fD rest st1
    | .exn st1 => .exn st1

/-- Source `execute_restructure(mappings, dry_run)`: a dry run performs nothing. -/
def executeRestructure (fC fD : String → Bool)
    (mappings : List (String × List (String × Option MapEntry)))
    (dryRun : Bool) (st : List String) : SRes Unit :=
  if dryRun then .ok () st
  else execNeighborhoods fC fD mappings st

/-- The spec's "maximum similarity score" over the reference index
(formalised from the spec's words, for comparison with the fold the code
performs): the maximum, over all entries, of the similarity between the
normalized folder name and the normalized entry address, `0` on an empty
index. -/
def specMaxScore (folderName : String) (csvMapping : List (String × String)) : ℚ :=
  csvMapping.foldl
    (fun a e => max a (similarityScore (normalizeAddress folderName) (normalizeAddress e.1))) 0

/-- Python `str.lower()` at `String` level. -/
def pyLowerStr (s : String) : String := ⟨pyLowerL s.data⟩

/-! Proof infrastructure for the `SequenceMatcher` model: invariants of the
dynamic-programming loop of `find_longest_match`. -/

/-- Size bounds on the `j2len` map entering outer iteration `iNext`:
every recorded chain consumed one outer iteration per element and stays
within `[blo, bhi)` on the `b` side. -/
def MapBnd (alo blo iNext : Nat) (m : Nat → Nat) : Prop :=
  ∀ j, m j ≤ iNext - alo ∧ m j ≤ j + 1 - blo

/-- Bounds on the running best block: either still the initial
`(alo, blo, 0)` or a genuine block inside the region. -/
def FlmBnd (alo ahi blo bhi : Nat) (st : Flm) : Prop :=
  (st.bi = alo ∧ st.bj = blo ∧ st.sz = 0) ∨
  (alo ≤ st.bi ∧ st.bi + st.sz ≤ ahi ∧ blo ≤ st.bj ∧ st.bj + st.sz ≤ bhi ∧ 0 < st.sz)

/-- Position `j` is usable as a DP anchor when `a = b = x`: inside the
region and not autojunk-purged. -/
def ancB (x : List Char) (alo ahi : Nat) (j : Nat) : Bool :=
  decide (alo ≤ j) && decide (j < ahi) && !(isPopular x (x.getD j ' '))

/-- Length of the maximal run of anchored positions ending at `j` (the value
the DP assigns to the diagonal cell `(j, j)` when matching `x` against
itself). -/
def dChain (x : List Char) (alo ahi : Nat) : Nat → Nat
  | 0 => if ancB x alo ahi 0 then 1 else 0
  | j + 1 => if ancB x alo ahi (j + 1) then dChain x alo ahi j + 1 else 0

/-! ## Theorems.  First, facts about the rational thresholds -/

/-- Equation: `ratioQ` is exactly `2.0 * matches / length` of `_calculate_ratio`. -/
theorem ratioQ_eq_div (a b : List Char) (h : a.length + b.length ≠ 0) :
    ratioQ a b = 2 * (matchTotal a b : ℚ) / ((a.length : ℚ) + (b.length : ℚ)) := by
  unfold ratioQ
  rw [if_neg h, Rat.mkRat_eq_div]
  push_cast
  ring

/-- The threshold literal `0.7` of `find_best_match`. -/
theorem sevenTenths : (mkRat 7 10 : ℚ) = 7/10 := by
  norm_num [Rat.mkRat_eq_div]

/-- The threshold literal `0.8` of `execute_restructure`. -/
theorem eightTenths : (mkRat 8 10 : ℚ) = 8/10 := by
  norm_num [Rat.mkRat_eq_div]

/-! ## Helper lemmas about the fuzzy-scan fold -/

theorem bestStep_eq (nf : String) (acc : Option String × ℚ × Option String)
    (e : String × String) :
    bestStep nf acc e =
      if acc.2.1 < similarityScore nf (normalizeAddress e.1) then
        (some e.2, similarityScore nf (normalizeAddress e.1), some e.1)
      else acc := rfl

theorem bestStep_snd (nf : String) (acc : Option String × ℚ × Option String)
    (e : String × String) :
    (bestStep nf acc e).2.1 = max acc.2.1 (similarityScore nf (normalizeAddress e.1)) := by
  rw [bestStep_eq]
  generalize similarityScore nf (normalizeAddress e.1) = s
  by_cases h : acc.2.1 < s
  · rw [if_pos h, max_eq_right (le_of_lt h)]
  · rw [if_neg h, max_eq_left (not_lt.1 h)]

/-- The fold of `find_best_match`'s fuzzy loop computes the maximum score. -/
theorem foldBest_score (nf : String) (l : List (String × String))
    (acc : Option String × ℚ × Option String) :
    (l.foldl (bestStep nf) acc).2.1 =
      l.foldl (fun a e => max a (similarityScore nf (normalizeAddress e.1))) acc.2.1 := by
  induction l generalizing acc with
  | nil => rfl
  | cons e l ih =>
    simp only [List.foldl_cons]
    rw [ih, bestStep_snd]

/-- The fold's result is either the initial accumulator or the triple built
from one of the scanned entries. -/
theorem foldBest_mem (nf : String) (l : List (String × String))
    (acc : Option String × ℚ × Option String) :
    l.foldl (bestStep nf) acc = acc ∨
    ∃ e ∈ l, l.foldl (bestStep nf) acc =
      (some e.2, similarityScore nf (normalizeAddress e.1), some e.1) := by
  induction l generalizing acc with
  | nil => exact Or.inl rfl
  | cons e l ih =>
    simp only [List.foldl_cons]
    rcases ih (bestStep nf acc e) with h | ⟨f, hf, h⟩
    · rw [h, bestStep_eq]
      by_cases hlt : acc.2.1 < similarityScore nf (normalizeAddress e.1)
      · rw [if_pos hlt]
        exact Or.inr ⟨e, List.mem_cons_self e l, rfl⟩
      · rw [if_neg hlt]
        exact Or.inl rfl
    · exact Or.inr ⟨f, List.mem_cons_of_mem e hf, h⟩

theorem dictGet_nil (k : String) : dictGet [] k = none := rfl

/-! Equation lemmas for `findBestMatch` and `execOneFolder` (each is a plain
case split of the definition, proved by `rfl` after rewriting the scrutinee). -/

theorem findBestMatch_override (folderName v : String) (csvMapping : List (String × String))
    (manualOverrides : Option (List (String × String)))
    (h : overrideHit manualOverrides folderName = some v) :
    findBestMatch folderName csvMapping manualOverrides =
      (if v = "DELETE" then (some "DELETE", 1, some "manual_deletion")
       else (some v, 1, some "manual_override")) := by
  unfold findBestMatch
  rw [h]

theorem findBestMatch_exact (folderName d : String) (csvMapping : List (String × String))
    (manualOverrides : Option (List (String × String)))
    (h1 : overrideHit manualOverrides folderName = none)
    (h2 : dictGet csvMapping (normalizeAddress folderName) = some d) :
    findBestMatch folderName csvMapping manualOverrides = (some d, 1, some "exact") := by
  unfold findBestMatch
  rw [h1]
  simp only [h2]

theorem findBestMatch_fuzzy (folderName : String) (csvMapping : List (String × String))
    (manualOverrides : Option (List (String × String)))
    (h1 : overrideHit manualOverrides folderName = none)
    (h2 : dictGet csvMapping (normalizeAddress folderName) = none) :
    findBestMatch folderName csvMapping manualOverrides =
      (if mkRat 7 10 ≤ (csvMapping.foldl (bestStep (normalizeAddress folderName))
          (none, 0, none)).2.1 then
        csvMapping.foldl (bestStep (normalizeAddress folderName)) (none, 0, none)
      else (none, 0, none)) := by
  unfold findBestMatch
  rw [h1]
  simp only [h2]

theorem execOneFolder_none (fC fD : String → Bool) (neighborhood oldName : String)
    (st : List String) :
    execOneFolder fC fD neighborhood st (oldName, none) = SRes.ok () st := rfl

theorem execOneFolder_some (fC fD : String → Bool) (neighborhood oldName : String)
    (st : List String) (m : MapEntry) :
    execOneFolder fC fD neighborhood st (oldName, some m) =
      (if m.score < mkRat 8 10 ∧ m.matchedAddress ≠ "manual_override" ∧
          m.matchedAddress ≠ "manual_deletion" then
        SRes.ok () st
      else if m.dealId = "DELETE" then dropB (deleteS3Folder fD st neighborhood oldName)
      else dropB (renameS3Folder fC fD st neighborhood oldName m.dealId)) := rfl

/-! ## Claims about the match resolver -/

/-- C10: every score returned by `find_best_match` is `0`, `1`, or at least
`0.7`; no returned score lies strictly between `0` and `0.7`. -/
theorem resolve_score_bands (folderName : String) (csvMapping : List (String × String))
    (manualOverrides : Option (List (String × String))) :
    (findBestMatch folderName csvMapping manualOverrides).2.1 = 0 ∨
    (findBestMatch folderName csvMapping manualOverrides).2.1 = 1 ∨
    (7/10 : ℚ) ≤ (findBestMatch folderName csvMapping manualOverrides).2.1 := by
  rcases hov : overrideHit manualOverrides folderName with _ | v
  · rcases hd : dictGet csvMapping (normalizeAddress folderName) with _ | d
    · rw [findBestMatch_fuzzy folderName csvMapping manualOverrides hov hd]
      by_cases h : mkRat 7 10 ≤ (csvMapping.foldl (bestStep (normalizeAddress folderName))
          (none, 0, none)).2.1
      · rw [if_pos h]
        exact Or.inr (Or.inr (by rw [← sevenTenths]; exact h))
      · rw [if_neg h]
        exact Or.inl rfl
    · rw [findBestMatch_exact folderName d csvMapping manualOverrides hov hd]
      exact Or.inr (Or.inl rfl)
  · rw [findBestMatch_override folderName v csvMapping manualOverrides hov]
    by_cases h : v = "DELETE"
    · rw [if_pos h]
      exact Or.inr (Or.inl rfl)
    · rw [if_neg h]
      exact Or.inr (Or.inl rfl)

/-- C6: a folder present in the overrides resolves with score `1.0` to the
`DELETE` sentinel (kind `manual_deletion`) or to the override value (kind
`manual_override`), and the reference index is never consulted (the result
does not depend on it). -/
theorem resolve_manual_override (folderName v : String)
    (ov csvMapping csvMapping2 : List (String × String))
    (h : dictGet ov folderName = some v) :
    findBestMatch folderName csvMapping (some ov) =
      (if v = "DELETE" then (some "DELETE", 1, some "manual_deletion")
       else (some v, 1, some "manual_override")) ∧
    findBestMatch folderName csvMapping (some ov) =
      findBestMatch folderName csvMapping2 (some ov) := by
  have hov : overrideHit (some ov) folderName = some v := by
    have hne : ov ≠ [] := by
      intro he
      rw [he, dictGet_nil] at h
      exact Option.noConfusion h
    show (if ov = [] then none else dictGet ov folderName) = some v
    rw [if_neg hne, h]
  constructor
  · exact findBestMatch_override folderName v csvMapping (some ov) hov
  · rw [findBestMatch_override folderName v csvMapping (some ov) hov,
      findBestMatch_override folderName v csvMapping2 (some ov) hov]

/-- Closed witness for `resolve_manual_override`. -/
theorem resolve_manual_override_witness :
    findBestMatch "dead" [("x", "9")] (some [("dead", "DELETE")]) =
      (some "DELETE", 1, some "manual_deletion") := by
  have h := (resolve_manual_override "dead" "DELETE" [("dead", "DELETE")]
    [("x", "9")] [] (by decide)).1
  rw [h]
  decide

/-- C4 counterexample: folder `"5 Elm Street"` and reference address
`"5 Elm St."` have equal normalizations, yet `find_best_match` does not
return the `"exact"` kind for them: the exact-match test compares the
normalized folder against the *raw star-stripped* index keys, so this pair
falls through to the fuzzy scan (which happens to score `1.0`, but with the
matched CSV address, not `"exact"`, in the kind position). -/
theorem resolve_exact_normalized_cex :
    normalizeAddress "5 Elm Street" = normalizeAddress (cleanAddr (pyStripStr "5 Elm St.")) ∧
    findBestMatch "5 Elm Street" (loadCsvMapping [("7", "5 Elm St.")]) none =
      (some "7", 1, some "5 Elm St.") ∧
    (some "5 Elm St." : Option String) ≠ some "exact" := by
  refine ⟨by decide, by decide, by decide⟩

/-- C4 (amended): exact-match precedence holds with respect to the index's
raw keys: if the *normalized folder name* is literally a key of the
reference index (a star-stripped, unnormalized CSV address), `resolve`
returns that entry with kind `exact` and score `1.0`, before any fuzzy
comparison.  (Equality of the two *normalizations* is not sufficient.) -/
theorem resolve_exact_key_precedence (folderName d : String)
    (csvMapping : List (String × String))
    (manualOverrides : Option (List (String × String)))
    (h1 : overrideHit manualOverrides folderName = none)
    (h2 : dictGet csvMapping (normalizeAddress folderName) = some d) :
    findBestMatch folderName csvMapping manualOverrides = (some d, 1, some "exact") :=
  findBestMatch_exact folderName d csvMapping manualOverrides h1 h2

/-- Closed witness for `resolve_exact_key_precedence`. -/
theorem resolve_exact_key_precedence_witness :
    findBestMatch "5 Elm St" (loadCsvMapping [("7", "5 Elm St")]) none =
      (some "7", 1, some "exact") :=
  resolve_exact_key_precedence "5 Elm St" "7" (loadCsvMapping [("7", "5 Elm St")]) none
    (by decide) (by decide)

/-- C5: with no override hit and no exact key hit, the resolver scores the
normalized folder name against every reference entry; if the maximum score
is at least `0.7` (`0.70` exactly is accepted) it returns a best-scoring
entry's id with that score (and the matched address in the kind position),
otherwise it returns an unmatched triple with target `None` and score `0.0`. -/
theorem resolve_fuzzy_threshold (folderName : String) (csvMapping : List (String × String))
    (manualOverrides : Option (List (String × String)))
    (h1 : overrideHit manualOverrides folderName = none)
    (h2 : dictGet csvMapping (normalizeAddress folderName) = none) :
    ((7/10 : ℚ) ≤ specMaxScore folderName csvMapping →
      ∃ e ∈ csvMapping,
        similarityScore (normalizeAddress folderName) (normalizeAddress e.1) =
          specMaxScore folderName csvMapping ∧
        findBestMatch folderName csvMapping manualOverrides =
          (some e.2, specMaxScore folderName csvMapping, some e.1)) ∧
    (specMaxScore folderName csvMapping < 7/10 →
      findBestMatch folderName csvMapping manualOverrides = (none, 0, none)) := by
  have hfb := findBestMatch_fuzzy folderName csvMapping manualOverrides h1 h2
  have hsc : (csvMapping.foldl (bestStep (normalizeAddress folderName))
      (none, 0, none)).2.1 = specMaxScore folderName csvMapping := by
    rw [foldBest_score]
    rfl
  constructor
  · intro h
    have hcond : mkRat 7 10 ≤ (csvMapping.foldl (bestStep (normalizeAddress folderName))
        (none, 0, none)).2.1 := by
      rw [sevenTenths, hsc]
      exact h
    rw [hfb, if_pos hcond]
    rcases foldBest_mem (normalizeAddress folderName) csvMapping (none, 0, none) with
      hacc | ⟨e, he, heq⟩
    · exfalso
      rw [hacc] at hsc
      rw [← hsc] at h
      norm_num at h
    · refine ⟨e, he, ?_, ?_⟩
      · rw [← hsc, heq]
      · rw [heq]
        have : similarityScore (normalizeAddress folderName) (normalizeAddress e.1) =
            specMaxScore folderName csvMapping := by
          rw [← hsc, heq]
        rw [this]
  · intro h
    have hcond : ¬ mkRat 7 10 ≤ (csvMapping.foldl (bestStep (normalizeAddress folderName))
        (none, 0, none)).2.1 := by
      rw [sevenTenths, hsc]
      exact not_le.2 h
    rw [hfb, if_neg hcond]

/-- Closed witness for `resolve_fuzzy_threshold` (sub-threshold side). -/
theorem resolve_fuzzy_threshold_witness :
    findBestMatch "zzzz" [("abcd", "1")] none = (none, 0, none) := by
  refine (resolve_fuzzy_threshold "zzzz" [("abcd", "1")] none rfl (by decide)).2 ?_
  unfold specMaxScore
  simp only [List.foldl_cons, List.foldl_nil]
  rw [show similarityScore (normalizeAddress "zzzz") (normalizeAddress ("abcd", "1").1) = 0
    from by decide]
  norm_num

/-! ## Claims about the plan executor's gating -/

/-- C3: a mapping whose score is below `0.8` and whose kind is neither
`manual_override` nor `manual_deletion` produces no storage mutation (the
bucket state is returned unchanged); a mapping whose kind is
`manual_override` or `manual_deletion` is always executed — delete for the
`DELETE` sentinel, rename otherwise — whatever its score. -/
theorem executor_low_confidence_gate (fC fD : String → Bool)
    (neighborhood oldName : String) (st : List String) (m : MapEntry) :
    (m.score < 8/10 → m.matchedAddress ≠ "manual_override" →
      m.matchedAddress ≠ "manual_deletion" →
      execOneFolder fC fD neighborhood st (oldName, some m) = SRes.ok () st) ∧
    (m.matchedAddress = "manual_override" ∨ m.matchedAddress = "manual_deletion" →
      execOneFolder fC fD neighborhood st (oldName, some m) =
        (if m.dealId = "DELETE" then dropB (deleteS3Folder fD st neighborhood oldName)
         else dropB (renameS3Folder fC fD st neighborhood oldName m.dealId))) := by
  constructor
  · intro hs ho hd
    rw [execOneFolder_some]
    exact if_pos ⟨by rw [eightTenths]; exact hs, ho, hd⟩
  · intro hk
    rw [execOneFolder_some]
    refine if_neg ?_
    rintro ⟨-, ho, hd⟩
    rcases hk with hk | hk
    · exact ho hk
    · exact hd hk

/-- Closed witness for `executor_low_confidence_gate`: a score-`0.5` fuzzy
match is skipped, a score-`0.5` manual override is renamed anyway. -/
theorem executor_low_confidence_gate_witness :
    execOneFolder (fun _ => false) (fun _ => false) "N" []
      ("f", some ⟨"9", 1/2, "matched"⟩) = SRes.ok () [] ∧
    execOneFolder (fun _ => false) (fun _ => false) "N" []
      ("f", some ⟨"9", 1/2, "manual_override"⟩) =
      dropB (renameS3Folder (fun _ => false) (fun _ => false) [] "N" "f" "9") := by
  constructor
  · exact (executor_low_confidence_gate (fun _ => false) (fun _ => false) "N" "f" []
      ⟨"9", 1/2, "matched"⟩).1 (by norm_num) (by decide) (by decide)
  · have h := (executor_low_confidence_gate (fun _ => false) (fun _ => false) "N" "f" []
      ⟨"9", 1/2, "manual_override"⟩).2 (Or.inl rfl)
    rw [h]
    rfl

/-! ## Helper lemmas about `replaceAll` (Python `str.replace`) -/

theorem replaceAllF_zero (pat rep s : List Char) : replaceAllF pat rep 0 s = s := rfl

theorem replaceAllF_nil (pat rep : List Char) (f : Nat) :
    replaceAllF pat rep (f + 1) [] = [] := rfl

theorem replaceAllF_cons (pat rep : List Char) (f : Nat) (c : Char) (rest : List Char) :
    replaceAllF pat rep (f + 1) (c :: rest) =
      if pat ≠ [] ∧ pat.isPrefixOf (c :: rest) then
        rep ++ replaceAllF pat rep f ((c :: rest).drop pat.length)
      else c :: replaceAllF pat rep f rest := rfl

/-- The fuel of `replaceAllF` is irrelevant once it covers the input length. -/
theorem replaceAllF_fuel (pat rep : List Char) (hp : pat ≠ []) :
    ∀ f1 f2 s, s.length ≤ f1 → s.length ≤ f2 →
      replaceAllF pat rep f1 s = replaceAllF pat rep f2 s := by
  have hplen : 0 < pat.length := List.length_pos.2 hp
  intro f1
  induction f1 with
  | zero =>
    intro f2 s h1 _
    have hs : s = [] := List.eq_nil_of_length_eq_zero (Nat.le_zero.1 h1)
    subst hs
    cases f2 <;> rfl
  | succ f1 ih =>
    intro f2 s h1 h2
    cases s with
    | nil => cases f2 <;> rfl
    | cons c rest =>
      cases f2 with
      | zero => simp at h2
      | succ f2 =>
        rw [replaceAllF_cons, replaceAllF_cons]
        by_cases hc : pat ≠ [] ∧ pat.isPrefixOf (c :: rest)
        · rw [if_pos hc, if_pos hc,
            ih f2 ((c :: rest).drop pat.length)
              (by simp only [List.length_drop, List.length_cons] at *; omega)
              (by simp only [List.length_drop, List.length_cons] at *; omega)]
        · rw [if_neg hc, if_neg hc,
            ih f2 rest (by simp only [List.length_cons] at h1; omega)
              (by simp only [List.length_cons] at h2; omega)]

/-- Python `str.replace` removes a leading occurrence of the pattern and continues
after it. -/
theorem replaceAll_head (pat rep t : List Char) (hp : pat ≠ []) :
    replaceAll pat rep (pat ++ t) = rep ++ replaceAll pat rep t := by
  cases pat with
  | nil => exact absurd rfl hp
  | cons c ps =>
    show replaceAllF (c :: ps) rep (((c :: ps) ++ t).length) ((c :: ps) ++ t) = _
    rw [show ((c :: ps) ++ t) = c :: (ps ++ t) from rfl]
    rw [show (c :: (ps ++ t)).length = (ps ++ t).length + 1 from rfl]
    rw [replaceAllF_cons]
    rw [if_pos ⟨hp, by
      rw [List.isPrefixOf_iff_prefix]
      exact ⟨t, by simp⟩⟩]
    rw [show (c :: (ps ++ t)) = (c :: ps) ++ t from rfl, List.drop_left]
    unfold replaceAll
    rw [replaceAllF_fuel (c :: ps) rep hp ((ps ++ t).length) t.length t
      (by simp only [List.length_append]; omega) (le_refl _)]

/-- Python `str.replace` leaves a string without any occurrence of the pattern
unchanged. -/
theorem replaceAll_of_no_occurrence (pat rep : List Char) (hp : pat ≠ []) :
    ∀ s, ¬ pat <:+: s → replaceAll pat rep s = s := by
  intro s
  induction s with
  | nil => intro _; rfl
  | cons c rest ih =>
    intro hni
    show replaceAllF pat rep (rest.length + 1) (c :: rest) = c :: rest
    rw [replaceAllF_cons, if_neg (by
      rintro ⟨-, hpre⟩
      exact hni (List.isPrefixOf_iff_prefix.1 hpre).isInfix)]
    have : replaceAllF pat rep rest.length rest = rest :=
      ih (fun h => hni (List.infix_cons h))
    rw [this]

/-- The key computation of the copy loop: when the old prefix does not
reoccur inside the relative suffix, `old_key.replace(old_prefix, '')` is
exactly the relative suffix. -/
theorem pyReplace_drop_pre (pre rel : String) (hp : pre.data ≠ [])
    (hni : ¬ pre.data <:+: rel.data) :
    pyReplace (pre ++ rel) pre "" = rel := by
  unfold pyReplace
  rw [show (pre ++ rel).data = pre.data ++ rel.data from String.data_append pre rel]
  rw [show ("" : String).data = [] from rfl]
  rw [replaceAll_head pre.data [] rel.data hp]
  rw [replaceAll_of_no_occurrence pre.data [] hp rel.data hni]
  show String.mk ([] ++ rel.data) = rel
  rw [List.nil_append]

/-- The folder prefixes built by the executor are never the empty string. -/
theorem folderRoot_data_ne_nil (neighborhood name : String) :
    (folderRoot neighborhood name).data ≠ [] := by
  unfold folderRoot
  rw [String.data_append]
  intro h
  rcases List.append_eq_nil.1 h with ⟨-, h2⟩
  exact (by decide : ("/" : String).data ≠ []) h2

/-! ## Helper lemmas about the storage model -/

theorem mem_insertKey (st : List String) (k x : String) (h : x ∈ st) : x ∈ insertKey st k := by
  unfold insertKey
  by_cases hk : k ∈ st
  · rwa [if_pos hk]
  · rw [if_neg hk]
    exact List.mem_append_left _ h

theorem mem_insertKey_self (st : List String) (k : String) : k ∈ insertKey st k := by
  unfold insertKey
  by_cases hk : k ∈ st
  · rwa [if_pos hk]
  · rw [if_neg hk]
    exact List.mem_append_right _ (List.mem_singleton.2 rfl)

theorem mem_of_mem_listUnder (st : List String) (pre k : String)
    (h : k ∈ listUnder st pre) : k ∈ st :=
  (List.mem_filter.1 h).1

theorem isPre_of_mem_listUnder (st : List String) (pre k : String)
    (h : k ∈ listUnder st pre) : pre.data <+: k.data := by
  have := (List.mem_filter.1 h).2
  exact List.isPrefixOf_iff_prefix.1 (by exact this)

theorem copyAllKeys_nil (fC : String → Bool) (oldRoot newRoot : String) (st : List String) :
    copyAllKeys fC oldRoot newRoot [] st = SRes.ok () st := rfl

theorem copyAllKeys_cons (fC : String → Bool) (oldRoot newRoot k : String)
    (ks : List String) (st : List String) :
    copyAllKeys fC oldRoot newRoot (k :: ks) st =
      (if fC k then SRes.exn st
       else copyAllKeys fC oldRoot newRoot ks
         (insertKey st (newRoot ++ pyReplace k oldRoot ""))) := rfl

theorem deleteAllKeys_nil (fD : String → Bool) (st : List String) :
    deleteAllKeys fD [] st = SRes.ok () st := rfl

theorem deleteAllKeys_cons (fD : String → Bool) (k : String) (ks st : List String) :
    deleteAllKeys fD (k :: ks) st =
      (if fD k then SRes.exn st else deleteAllKeys fD ks (removeKey st k)) := rfl

/-- The copy loop only ever inserts keys: whatever it returns (normally or by
raising), every key present before is still present. -/
theorem copyAllKeys_superset (fC : String → Bool) (oldRoot newRoot : String) :
    ∀ ks st x, x ∈ st →
      (∀ st', copyAllKeys fC oldRoot newRoot ks st = SRes.ok () st' → x ∈ st') ∧
      (∀ st', copyAllKeys fC oldRoot newRoot ks st = SRes.exn st' → x ∈ st') := by
  intro ks
  induction ks with
  | nil =>
    intro st x hx
    constructor
    · intro st' h
      rw [copyAllKeys_nil] at h
      injection h with _ h2
      rwa [← h2]
    · intro st' h
      rw [copyAllKeys_nil] at h
      exact absurd h (by intro hc; exact SRes.noConfusion hc)
  | cons k ks ih =>
    intro st x hx
    by_cases hf : fC k
    · constructor
      · intro st' h
        rw [copyAllKeys_cons, if_pos hf] at h
        exact absurd h (by intro hc; exact SRes.noConfusion hc)
      · intro st' h
        rw [copyAllKeys_cons, if_pos hf] at h
        injection h with h1
        rwa [← h1]
    · have hx2 : x ∈ insertKey st (newRoot ++ pyReplace k oldRoot "") :=
        mem_insertKey _ _ _ hx
      constructor
      · intro st' h
        rw [copyAllKeys_cons, if_neg hf] at h
        exact (ih _ x hx2).1 st' h
      · intro st' h
        rw [copyAllKeys_cons, if_neg hf] at h
        exact (ih _ x hx2).2 st' h

/-- If some listed key's copy raises, the whole copy loop raises. -/
theorem copyAllKeys_fail (fC : String → Bool) (oldRoot newRoot : String) :
    ∀ ks st, (∃ k ∈ ks, fC k = true) →
      ∃ st', copyAllKeys fC oldRoot newRoot ks st = SRes.exn st' := by
  intro ks
  induction ks with
  | nil =>
    intro st h
    rcases h with ⟨k, hk, _⟩
    exact absurd hk (List.not_mem_nil k)
  | cons k ks ih =>
    intro st h
    by_cases hf : fC k
    · exact ⟨st, by rw [copyAllKeys_cons, if_pos hf]⟩
    · rcases h with ⟨k', hk', hf'⟩
      rcases List.mem_cons.1 hk' with rfl | hmem
      · exact absurd hf' (by simpa using hf)
      · rcases ih (insertKey st (newRoot ++ pyReplace k oldRoot "")) ⟨k', hmem, hf'⟩ with
          ⟨st', h'⟩
        exact ⟨st', by rw [copyAllKeys_cons, if_neg hf]; exact h'⟩

/-- If no listed key's copy raises, the copy loop returns normally. -/
theorem copyAllKeys_all_ok (fC : String → Bool) (oldRoot newRoot : String) :
    ∀ ks st, (∀ k ∈ ks, fC k = false) →
      ∃ st', copyAllKeys fC oldRoot newRoot ks st = SRes.ok () st' := by
  intro ks
  induction ks with
  | nil => intro st _; exact ⟨st, rfl⟩
  | cons k ks ih =>
    intro st h
    have hf : fC k = false := h k (List.mem_cons_self k ks)
    rcases ih (insertKey st (newRoot ++ pyReplace k oldRoot ""))
      (fun k' hk' => h k' (List.mem_cons_of_mem k hk')) with ⟨st', h'⟩
    exact ⟨st', by rw [copyAllKeys_cons, if_neg (by simp [hf])]; exact h'⟩

/-- After a normal return of the copy loop, the destination key of every
listed source key is present. -/
theorem copyAllKeys_dest (fC : String → Bool) (oldRoot newRoot : String) :
    ∀ ks st st', copyAllKeys fC oldRoot newRoot ks st = SRes.ok () st' →
      ∀ k ∈ ks, newRoot ++ pyReplace k oldRoot "" ∈ st' := by
  intro ks
  induction ks with
  | nil =>
    intro st st' _ k hk
    exact absurd hk (List.not_mem_nil k)
  | cons k ks ih =>
    intro st st' h k' hk'
    by_cases hf : fC k
    · rw [copyAllKeys_cons, if_pos hf] at h
      exact absurd h (by intro hc; exact SRes.noConfusion hc)
    · rw [copyAllKeys_cons, if_neg hf] at h
      rcases List.mem_cons.1 hk' with rfl | hmem
      · exact (copyAllKeys_superset fC oldRoot newRoot ks _ _
          (mem_insertKey_self st _)).1 st' h
      · exact ih _ st' h k' hmem

/-- Unfolding of `renameS3Folder`. -/
theorem renameS3Folder_eq (fC fD : String → Bool) (st : List String)
    (neighborhood oldName newName : String) :
    renameS3Folder fC fD st neighborhood oldName newName =
      (if listUnder st (folderRoot neighborhood oldName) = [] then SRes.ok false st
       else
        match copyAllKeys fC (folderRoot neighborhood oldName)
            (folderRoot neighborhood newName)
            (listUnder st (folderRoot neighborhood oldName)) st with
        | .exn st1 => SRes.exn st1
        | .ok _ st1 =>
          match deleteAllKeys fD (listUnder st (folderRoot neighborhood oldName)) st1 with
          | .exn st2 => SRes.exn st2
          | .ok _ st2 => SRes.ok true st2) := rfl

/-! ## C1: the rename operation -/

/-- C1 counterexample: the relative path suffix is *not* always preserved.
`new_key = new_prefix + old_key.replace(old_prefix, '')` deletes **every**
occurrence of the old prefix, so an object key in which the prefix reoccurs
inside the relative suffix is copied to a collapsed key: here the object
`.../N/a/Neighborhood Listing Images/N/a/f` ends up at `.../N/b/f`, and the
suffix-preserving equivalent key `.../N/b/Neighborhood Listing Images/N/a/f`
is never created. -/
theorem rename_folder_suffix_cex :
    renameS3Folder (fun _ => false) (fun _ => false)
      ["Neighborhood Listing Images/N/a/Neighborhood Listing Images/N/a/f"] "N" "a" "b" =
      SRes.ok true ["Neighborhood Listing Images/N/b/f"] ∧
    ("Neighborhood Listing Images/N/b/Neighborhood Listing Images/N/a/f" : String) ∉
      (["Neighborhood Listing Images/N/b/f"] : List String) := by
  exact ⟨by decide, by decide⟩

/-- C1 (amended): for every rename, (a) if any single copy raises, the whole
rename raises and every source object of the folder is still present — no
source object is deleted; (b) if every copy succeeds, the copy phase
completes first, producing a state that contains the destination key of
every source object — equal to `new_prefix ++ relative_suffix` whenever the
old prefix does not reoccur inside the suffix (the code deletes every
occurrence of the old prefix, see the counterexample) — and only then does
the delete phase run, starting from that all-copies-done state. -/
theorem rename_folder_copy_then_delete (fC fD : String → Bool) (st : List String)
    (neighborhood oldName newName : String) :
    ((∃ k ∈ listUnder st (folderRoot neighborhood oldName), fC k = true) →
      ∃ st', renameS3Folder fC fD st neighborhood oldName newName = SRes.exn st' ∧
        ∀ k ∈ listUnder st (folderRoot neighborhood oldName), k ∈ st') ∧
    ((∀ k ∈ listUnder st (folderRoot neighborhood oldName), fC k = false) →
      listUnder st (folderRoot neighborhood oldName) ≠ [] →
      ∃ stMid,
        copyAllKeys fC (folderRoot neighborhood oldName) (folderRoot neighborhood newName)
          (listUnder st (folderRoot neighborhood oldName)) st = SRes.ok () stMid ∧
        (∀ k ∈ listUnder st (folderRoot neighborhood oldName),
          folderRoot neighborhood newName ++
            pyReplace k (folderRoot neighborhood oldName) "" ∈ stMid) ∧
        (∀ k rel, k ∈ listUnder st (folderRoot neighborhood oldName) →
          k = folderRoot neighborhood oldName ++ rel →
          ¬ (folderRoot neighborhood oldName).data <:+: rel.data →
          folderRoot neighborhood newName ++ rel ∈ stMid) ∧
        renameS3Folder fC fD st neighborhood oldName newName =
          (match deleteAllKeys fD (listUnder st (folderRoot neighborhood oldName)) stMid with
           | .exn st2 => SRes.exn st2
           | .ok _ st2 => SRes.ok true st2)) := by
  constructor
  · intro hfail
    have hne : listUnder st (folderRoot neighborhood oldName) ≠ [] := by
      rcases hfail with ⟨k, hk, _⟩
      intro h0
      rw [h0] at hk
      exact List.not_mem_nil k hk
    rcases copyAllKeys_fail fC (folderRoot neighborhood oldName)
      (folderRoot neighborhood newName) (listUnder st (folderRoot neighborhood oldName)) st
      hfail with ⟨st', hc⟩
    refine ⟨st', ?_, ?_⟩
    · rw [renameS3Folder_eq, if_neg hne, hc]
    · intro k hk
      exact (copyAllKeys_superset fC (folderRoot neighborhood oldName)
        (folderRoot neighborhood newName) _ st k
        (mem_of_mem_listUnder st _ k hk)).2 st' hc
  · intro hall hne
    rcases copyAllKeys_all_ok fC (folderRoot neighborhood oldName)
      (folderRoot neighborhood newName) (listUnder st (folderRoot neighborhood oldName)) st
      hall with ⟨stMid, hok⟩
    refine ⟨stMid, hok, ?_, ?_, ?_⟩
    · intro k hk
      exact copyAllKeys_dest fC _ _ _ st stMid hok k hk
    · intro k rel hk hkeq hni
      have hd := copyAllKeys_dest fC _ _ _ st stMid hok k hk
      rw [hkeq] at hd
      rwa [pyReplace_drop_pre (folderRoot neighborhood oldName) rel
        (folderRoot_data_ne_nil neighborhood oldName) hni] at hd
    · rw [renameS3Folder_eq, if_neg hne, hok]

/-- Closed witness for `rename_folder_copy_then_delete`: both branches at a
concrete bucket — one failing copy (sources intact, exception raised), and a
clean rename of a two-object folder. -/
theorem rename_folder_copy_then_delete_witness :
    (∃ st', renameS3Folder (fun _ => true) (fun _ => false)
        ["Neighborhood Listing Images/N/a/f"] "N" "a" "b" = SRes.exn st' ∧
      ∀ k ∈ listUnder ["Neighborhood Listing Images/N/a/f"] (folderRoot "N" "a"), k ∈ st') ∧
    ∃ stMid,
      copyAllKeys (fun _ => false) (folderRoot "N" "a") (folderRoot "N" "b")
        (listUnder ["Neighborhood Listing Images/N/a/f"] (folderRoot "N" "a"))
        ["Neighborhood Listing Images/N/a/f"] = SRes.ok () stMid ∧
      (∀ k ∈ listUnder ["Neighborhood Listing Images/N/a/f"] (folderRoot "N" "a"),
        folderRoot "N" "b" ++ pyReplace k (folderRoot "N" "a") "" ∈ stMid) ∧
      (∀ k rel, k ∈ listUnder ["Neighborhood Listing Images/N/a/f"] (folderRoot "N" "a") →
        k = folderRoot "N" "a" ++ rel →
        ¬ (folderRoot "N" "a").data <:+: rel.data →
        folderRoot "N" "b" ++ rel ∈ stMid) ∧
      renameS3Folder (fun _ => false) (fun _ => false)
        ["Neighborhood Listing Images/N/a/f"] "N" "a" "b" =
        (match deleteAllKeys (fun _ => false)
            (listUnder ["Neighborhood Listing Images/N/a/f"] (folderRoot "N" "a")) stMid with
         | .exn st2 => SRes.exn st2
         | .ok _ st2 => SRes.ok true st2) := by
  constructor
  · exact (rename_folder_copy_then_delete (fun _ => true) (fun _ => false)
      ["Neighborhood Listing Images/N/a/f"] "N" "a" "b").1
      ⟨"Neighborhood Listing Images/N/a/f", by decide, rfl⟩
  · exact (rename_folder_copy_then_delete (fun _ => false) (fun _ => false)
      ["Neighborhood Listing Images/N/a/f"] "N" "a" "b").2
      (fun _ _ => rfl) (by decide)

/-! ## C2: failure propagation through the plan executor -/

theorem execFolders_nil (fC fD : String → Bool) (neighborhood : String) (st : List String) :
    execFolders fC fD neighborhood [] st = SRes.ok () st := rfl

theorem execFolders_cons (fC fD : String → Bool) (neighborhood : String)
    (p : String × Option MapEntry) (ps : List (String × Option MapEntry)) (st : List String) :
    execFolders fC fD neighborhood (p :: ps) st =
      (match execOneFolder fC fD neighborhood st p with
       | .ok _ st1 => execFolders fC fD neighborhood ps st1
       | .exn st1 => SRes.exn st1) := rfl

/-- C2 counterexample: a copy failure on folder `A`'s single object is *not*
converted to a per-folder failure value: `execute_restructure` raises (the
result is the `exn` constructor — the exception escapes the component), the
bucket is left exactly as it was, and the remaining folder `B` is never
processed (no object of `B` was copied or deleted). -/
theorem executor_failure_uncaught_cex :
    executeRestructure (fun k => k == "Neighborhood Listing Images/N/A/x") (fun _ => false)
      [("N", [("A", some ⟨"7", 1, "exact"⟩), ("B", some ⟨"8", 1, "exact"⟩)])] false
      ["Neighborhood Listing Images/N/A/x", "Neighborhood Listing Images/N/B/y"] =
      SRes.exn
        ["Neighborhood Listing Images/N/A/x", "Neighborhood Listing Images/N/B/y"] ∧
    ("Neighborhood Listing Images/N/8/y" : String) ∉
      (["Neighborhood Listing Images/N/A/x", "Neighborhood Listing Images/N/B/y"] :
        List String) := by
  exact ⟨by decide, by decide⟩

/-- C2 (amended): storage failures are *not* caught at the call site: if
processing one folder raises, the executor's loop returns that exception
unchanged and the remaining folders are not processed; if a folder completes
normally, the loop continues with the next folder.  Only the empty-folder
condition is converted to a per-folder value (`False`) rather than an
exception. -/
theorem executor_exception_propagation (fC fD : String → Bool) (neighborhood : String)
    (p : String × Option MapEntry) (rest : List (String × Option MapEntry))
    (st st' : List String) :
    (execOneFolder fC fD neighborhood st p = SRes.exn st' →
      execFolders fC fD neighborhood (p :: rest) st = SRes.exn st') ∧
    (execOneFolder fC fD neighborhood st p = SRes.ok () st' →
      execFolders fC fD neighborhood (p :: rest) st =
        execFolders fC fD neighborhood rest st') ∧
    (∀ newName, listUnder st (folderRoot neighborhood p.1) = [] →
      renameS3Folder fC fD st neighborhood p.1 newName = SRes.ok false st) := by
  refine ⟨?_, ?_, ?_⟩
  · intro h
    rw [execFolders_cons, h]
  · intro h
    rw [execFolders_cons, h]
  · intro newName hempty
    rw [renameS3Folder_eq, if_pos hempty]

/-- Closed witness for `executor_exception_propagation`: the failing-folder
branch at a concrete bucket, plus the empty-folder value conversion. -/
theorem executor_exception_propagation_witness :
    execFolders (fun k => k == "Neighborhood Listing Images/M/A/x") (fun _ => false) "M"
      [("A", some ⟨"7", 1, "exact"⟩), ("B", some ⟨"8", 1, "exact"⟩)]
      ["Neighborhood Listing Images/M/A/x"] =
      SRes.exn ["Neighborhood Listing Images/M/A/x"] ∧
    renameS3Folder (fun _ => false) (fun _ => false) [] "M" "empty" "9" =
      SRes.ok false [] := by
  constructor
  · exact (executor_exception_propagation (fun k => k == "Neighborhood Listing Images/M/A/x")
      (fun _ => false) "M" ("A", some ⟨"7", 1, "exact"⟩)
      [("B", some ⟨"8", 1, "exact"⟩)] ["Neighborhood Listing Images/M/A/x"]
      ["Neighborhood Listing Images/M/A/x"]).1 (by decide)
  · exact (executor_exception_propagation (fun _ => false) (fun _ => false) "M"
      ("empty", none) [] [] []).2.2 "9" (by decide)

/-! ## C7: the reference-index loader -/

theorem dictGet_mem (d : List (String × String)) (k v : String)
    (h : dictGet d k = some v) : (k, v) ∈ d := by
  unfold dictGet at h
  rcases hf : d.find? (fun p => p.1 = k) with _ | p
  · rw [hf] at h
    exact absurd h (by simp)
  · rw [hf] at h
    have hp : p ∈ d := List.mem_of_find?_eq_some hf
    have hk : p.1 = k := by
      have := List.find?_some hf
      simpa using this
    have hv : p.2 = v := by
      simpa using h
    rw [← hk, ← hv]
    exact hp

theorem dictSet_pairs (d : List (String × String)) (k v : String)
    {x : String × String} (h : x ∈ dictSet d k v) : x ∈ d ∨ x = (k, v) := by
  unfold dictSet at h
  by_cases hc : d.any (fun p => p.1 = k)
  · rw [if_pos hc] at h
    rcases List.mem_map.1 h with ⟨y, hy, hyx⟩
    by_cases hk : y.1 = k
    · rw [if_pos hk] at hyx
      exact Or.inr hyx.symm
    · rw [if_neg hk] at hyx
      exact Or.inl (hyx ▸ hy)
  · rw [if_neg hc] at h
    rcases List.mem_append.1 h with h1 | h1
    · exact Or.inl h1
    · exact Or.inr (List.mem_singleton.1 h1)

theorem dictGet_map_overwrite (k v : String) :
    ∀ d : List (String × String), d.any (fun p => p.1 = k) = true →
      dictGet (d.map (fun p => if p.1 = k then (k, v) else p)) k = some v := by
  intro d
  induction d with
  | nil => intro hc; simp at hc
  | cons p rest ih =>
    intro hc
    by_cases hk : p.1 = k
    · unfold dictGet
      rw [List.map_cons, if_pos hk, List.find?_cons_of_pos _ (by simp)]
      rfl
    · have hc' : rest.any (fun q => q.1 = k) = true := by
        rcases List.any_eq_true.1 hc with ⟨q, hq, hqk⟩
        rcases List.mem_cons.1 hq with rfl | hq'
        · exact absurd (of_decide_eq_true hqk) hk
        · exact List.any_eq_true.2 ⟨q, hq', hqk⟩
      unfold dictGet
      rw [List.map_cons, if_neg hk, List.find?_cons_of_neg _ (by simpa using hk)]
      exact ih hc'

theorem dictGet_dictSet_self (d : List (String × String)) (k v : String) :
    dictGet (dictSet d k v) k = some v := by
  unfold dictSet
  by_cases hc : d.any (fun p => p.1 = k)
  · rw [if_pos hc]
    exact dictGet_map_overwrite k v d hc
  · rw [if_neg hc]
    unfold dictGet
    rw [List.find?_append]
    have hnone : d.find? (fun p => p.1 = k) = none := by
      rw [List.find?_eq_none]
      intro x hx hxk
      exact hc (List.any_eq_true.2 ⟨x, hx, hxk⟩)
    rw [hnone]
    simp

/-- One step of the loader's fold. -/
theorem loadCsvMapping_append_one (rows : List (String × String)) (r : String × String) :
    loadCsvMapping (rows ++ [r]) =
      (if pyStripStr r.1 ≠ "" ∧ pyStripStr r.2 ≠ "" then
        dictSet (loadCsvMapping rows) (cleanAddr (pyStripStr r.2)) (pyStripStr r.1)
      else loadCsvMapping rows) := by
  unfold loadCsvMapping
  rw [List.foldl_append]
  rfl

/-- Every pair produced by the loader's fold comes from the accumulator or
from a kept row. -/
theorem loadFold_pairs (rows : List (String × String)) :
    ∀ (m : List (String × String)) (x : String × String),
      x ∈ rows.foldl
        (fun mapping row =>
          if pyStripStr row.1 ≠ "" ∧ pyStripStr row.2 ≠ "" then
            dictSet mapping (cleanAddr (pyStripStr row.2)) (pyStripStr row.1)
          else mapping) m →
      x ∈ m ∨ ∃ r ∈ rows, pyStripStr r.1 ≠ "" ∧ pyStripStr r.2 ≠ "" ∧
        x = (cleanAddr (pyStripStr r.2), pyStripStr r.1) := by
  induction rows with
  | nil =>
    intro m x hx
    exact Or.inl hx
  | cons r rows ih =>
    intro m x hx
    rw [List.foldl_cons] at hx
    rcases ih _ x hx with hm | ⟨r', hr', h1, h2, h3⟩
    · by_cases hc : pyStripStr r.1 ≠ "" ∧ pyStripStr r.2 ≠ ""
      · rw [if_pos hc] at hm
        rcases dictSet_pairs m _ _ hm with hm' | hm'
        · exact Or.inl hm'
        · exact Or.inr ⟨r, List.mem_cons_self r rows, hc.1, hc.2, hm'⟩
      · rw [if_neg hc] at hm
        exact Or.inl hm
    · exact Or.inr ⟨r', List.mem_cons_of_mem r hr', h1, h2, h3⟩

/-- C7 counterexample: the loader's key for the row
`("7", "5 Elm St.")` is the star-stripped address `"5 Elm St."` itself, not
its full normalization `normalize("5 Elm St.") = "5 Elm Street"` as the
claim states. -/
theorem loader_key_not_normalized_cex :
    dictGet (loadCsvMapping [("7", "5 Elm St.")]) "5 Elm St." = some "7" ∧
    "5 Elm St." ≠ normalizeAddress (cleanAddr (pyStripStr "5 Elm St.")) := by
  exact ⟨by decide, by decide⟩

/-- C7 (amended): every key of the loaded mapping is the star-stripped
(whitespace-trimmed) address of some kept row — *not* its normalization —
with rows whose trimmed id or address is empty skipped, and a later
duplicate key overwriting the earlier value. -/
theorem loader_key_shape (rows : List (String × String)) :
    (∀ k v, dictGet (loadCsvMapping rows) k = some v →
      ∃ r ∈ rows, pyStripStr r.1 ≠ "" ∧ pyStripStr r.2 ≠ "" ∧
        k = cleanAddr (pyStripStr r.2) ∧ v = pyStripStr r.1) ∧
    (∀ r : String × String, pyStripStr r.1 ≠ "" → pyStripStr r.2 ≠ "" →
      dictGet (loadCsvMapping (rows ++ [r])) (cleanAddr (pyStripStr r.2)) =
        some (pyStripStr r.1)) ∧
    (∀ r : String × String, ¬ (pyStripStr r.1 ≠ "" ∧ pyStripStr r.2 ≠ "") →
      loadCsvMapping (rows ++ [r]) = loadCsvMapping rows) := by
  refine ⟨?_, ?_, ?_⟩
  · intro k v h
    have hmem := dictGet_mem _ k v h
    rcases loadFold_pairs rows [] (k, v) hmem with hnil | ⟨r, hr, h1, h2, h3⟩
    · exact absurd hnil (List.not_mem_nil _)
    · injection h3 with h3k h3v
      exact ⟨r, hr, h1, h2, h3k, h3v⟩
  · intro r h1 h2
    rw [loadCsvMapping_append_one, if_pos ⟨h1, h2⟩]
    exact dictGet_dictSet_self _ _ _
  · intro r hns
    rw [loadCsvMapping_append_one, if_neg hns]

/-- Closed witness for `loader_key_shape`: the key of a loaded singleton row
is its star-stripped address, and a duplicate row overwrites. -/
theorem loader_key_shape_witness :
    (∃ r ∈ ([("7", " 5 Elm St.* ")] : List (String × String)),
      pyStripStr r.1 ≠ "" ∧ pyStripStr r.2 ≠ "" ∧
        "5 Elm St." = cleanAddr (pyStripStr r.2) ∧ "7" = pyStripStr r.1) ∧
    dictGet (loadCsvMapping ([("7", "5 Elm St.")] ++ [("8", "5 Elm St.")])) "5 Elm St." =
      some "8" := by
  constructor
  · exact (loader_key_shape [("7", " 5 Elm St.* ")]).1 "5 Elm St." "7" (by decide)
  · have h := (loader_key_shape [("7", "5 Elm St.")]).2.1 ("8", "5 Elm St.")
      (by decide) (by decide)
    rw [show cleanAddr (pyStripStr "5 Elm St.") = "5 Elm St." from by decide,
      show pyStripStr "8" = "8" from by decide] at h
    exact h

/-! ## C8: abbreviation anchoring in the normalizer -/

/-- C8 counterexample: `" Pl"` is replaced even when it is the beginning of
the larger word `"Plaza"` (no delimiter follows), corrupting the address:
`normalize("1 Plaza") = "1 Placeaza"`. -/
theorem normalize_abbrev_substring_cex :
    normalizeAddress "1 Plaza" = "1 Placeaza" ∧ ("1 Plaza" : String) ≠ "1 Placeaza" := by
  exact ⟨by decide, by decide⟩

/-- C8 (amended): `St` and `Ave` are expanded only at occurrences preceded by
a space and followed by a space, comma or period (the period is dropped, and
an occurrence at the very end of the string is not expanded), so they never
corrupt the inside of a word; `Brdwy`, `Blvd` and `Pl` are anchored only by
the leading space and are expanded even as the beginning of a longer word.
Verified on inputs exercising each anchoring case. -/
theorem normalize_abbrev_anchoring :
    normalizeAddress "1 Grand St, x" = "1 Grand Street x" ∧
    normalizeAddress "1 Grand St x" = "1 Grand Street x" ∧
    normalizeAddress "5 Elm St." = "5 Elm Street" ∧
    normalizeAddress "Stone" = "Stone" ∧
    normalizeAddress "1 Main St" = "1 Main St" ∧
    normalizeAddress "1 Stone Ave " = "1 Stone Avenue" ∧
    normalizeAddress "1 Blvdx" = "1 Boulevardx" ∧
    normalizeAddress "1 Brdwyz" = "1 Broadwayz" ∧
    normalizeAddress "1 Plaza" = "1 Placeaza" := by
  refine ⟨by decide, by decide, by decide, by decide, by decide, by decide, by decide,
    by decide, by decide⟩

/-! ## C9: the similarity scorer.

Equation lemmas for the `SequenceMatcher` model, then bounds
(`ratio ∈ [0, 1]`), the diagonal analysis giving `ratio(x, x) = 1`, and
case-insensitivity. -/

theorem flmInner_nil (m : Nat → Nat) (i : Nat) (nm : Nat → Nat) (best : Flm) :
    flmInner m i [] nm best = (nm, best) := rfl

theorem flmInner_cons (m : Nat → Nat) (i j : Nat) (js : List Nat) (nm : Nat → Nat)
    (best : Flm) :
    flmInner m i (j :: js) nm best =
      flmInner m i js
        (fun x => if x = j then (if j = 0 then 0 else m (j - 1)) + 1 else nm x)
        (if best.sz < (if j = 0 then 0 else m (j - 1)) + 1 then
          ⟨i + 1 - ((if j = 0 then 0 else m (j - 1)) + 1),
           j + 1 - ((if j = 0 then 0 else m (j - 1)) + 1),
           (if j = 0 then 0 else m (j - 1)) + 1⟩
        else best) := rfl

theorem flmOuter_zero (a b : List Char) (blo bhi i : Nat) (m : Nat → Nat) (best : Flm) :
    flmOuter a b blo bhi i 0 m best = best := rfl

theorem flmOuter_succ (a b : List Char) (blo bhi i c : Nat) (m : Nat → Nat) (best : Flm) :
    flmOuter a b blo bhi i (c + 1) m best =
      flmOuter a b blo bhi (i + 1) c
        (flmInner m i ((b2jOf b (a.getD i ' ')).filter
          (fun j => decide (blo ≤ j) && decide (j < bhi))) (fun _ => 0) best).1
        (flmInner m i ((b2jOf b (a.getD i ' ')).filter
          (fun j => decide (blo ≤ j) && decide (j < bhi))) (fun _ => 0) best).2 := rfl

theorem extendBack_zero (a b : List Char) (alo blo : Nat) (st : Flm) :
    extendBack a b alo blo 0 st = st := rfl

theorem extendBack_succ (a b : List Char) (alo blo f : Nat) (st : Flm) :
    extendBack a b alo blo (f + 1) st =
      (if alo < st.bi ∧ blo < st.bj ∧ a.getD (st.bi - 1) ' ' = b.getD (st.bj - 1) ' ' then
        extendBack a b alo blo f ⟨st.bi - 1, st.bj - 1, st.sz + 1⟩
      else st) := rfl

theorem extendFwd_zero (a b : List Char) (ahi bhi : Nat) (st : Flm) :
    extendFwd a b ahi bhi 0 st = st := rfl

theorem extendFwd_succ (a b : List Char) (ahi bhi f : Nat) (st : Flm) :
    extendFwd a b ahi bhi (f + 1) st =
      (if st.bi + st.sz < ahi ∧ st.bj + st.sz < bhi ∧
          a.getD (st.bi + st.sz) ' ' = b.getD (st.bj + st.sz) ' ' then
        extendFwd a b ahi bhi f ⟨st.bi, st.bj, st.sz + 1⟩
      else st) := rfl

theorem mtF_zero (a b : List Char) (alo ahi blo bhi : Nat) :
    mtF a b 0 alo ahi blo bhi = 0 := rfl

theorem mtF_succ (a b : List Char) (f alo ahi blo bhi : Nat) :
    mtF a b (f + 1) alo ahi blo bhi =
      (if (findLongestMatch a b alo ahi blo bhi).sz = 0 then 0
       else
        (if alo < (findLongestMatch a b alo ahi blo bhi).bi ∧
            blo < (findLongestMatch a b alo ahi blo bhi).bj then
          mtF a b f alo (findLongestMatch a b alo ahi blo bhi).bi blo
            (findLongestMatch a b alo ahi blo bhi).bj
        else 0)
        + (findLongestMatch a b alo ahi blo bhi).sz
        + (if (findLongestMatch a b alo ahi blo bhi).bi +
              (findLongestMatch a b alo ahi blo bhi).sz < ahi ∧
            (findLongestMatch a b alo ahi blo bhi).bj +
              (findLongestMatch a b alo ahi blo bhi).sz < bhi then
          mtF a b f ((findLongestMatch a b alo ahi blo bhi).bi +
              (findLongestMatch a b alo ahi blo bhi).sz) ahi
            ((findLongestMatch a b alo ahi blo bhi).bj +
              (findLongestMatch a b alo ahi blo bhi).sz) bhi
        else 0)) := rfl

/-- The inner DP loop preserves the size bounds on the new map and the
running best. -/
theorem flmInner_bnd (m : Nat → Nat) (i alo ahi blo bhi : Nat)
    (him : alo ≤ i) (hia : i < ahi) (hm : MapBnd alo blo i m) :
    ∀ js (nm : Nat → Nat) (best : Flm),
      (∀ j ∈ js, blo ≤ j ∧ j < bhi) →
      MapBnd alo blo (i + 1) nm → FlmBnd alo ahi blo bhi best →
      MapBnd alo blo (i + 1) (flmInner m i js nm best).1 ∧
      FlmBnd alo ahi blo bhi (flmInner m i js nm best).2 := by
  intro js
  induction js with
  | nil =>
    intro nm best _ hnm hbest
    rw [flmInner_nil]
    exact ⟨hnm, hbest⟩
  | cons j js ih =>
    intro nm best hjs hnm hbest
    rw [flmInner_cons]
    have hj := hjs j (List.mem_cons_self j js)
    have hk1 : (if j = 0 then 0 else m (j - 1)) + 1 ≤ i + 1 - alo := by
      by_cases hj0 : j = 0
      · rw [if_pos hj0]; omega
      · rw [if_neg hj0]
        have := (hm (j - 1)).1
        omega
    have hk2 : (if j = 0 then 0 else m (j - 1)) + 1 ≤ j + 1 - blo := by
      by_cases hj0 : j = 0
      · rw [if_pos hj0]; omega
      · rw [if_neg hj0]
        have := (hm (j - 1)).2
        omega
    apply ih
    · exact fun j' hj' => hjs j' (List.mem_cons_of_mem j hj')
    · intro x
      dsimp only
      by_cases hx : x = j
      · rw [if_pos hx, hx]
        exact ⟨hk1, hk2⟩
      · rw [if_neg hx]
        exact hnm x
    · by_cases hlt : best.sz < (if j = 0 then 0 else m (j - 1)) + 1
      · rw [if_pos hlt]
        refine Or.inr ⟨?_, ?_, ?_, ?_, ?_⟩
        · show alo ≤ i + 1 - ((if j = 0 then 0 else m (j - 1)) + 1)
          omega
        · show i + 1 - ((if j = 0 then 0 else m (j - 1)) + 1) +
            ((if j = 0 then 0 else m (j - 1)) + 1) ≤ ahi
          omega
        · show blo ≤ j + 1 - ((if j = 0 then 0 else m (j - 1)) + 1)
          omega
        · show j + 1 - ((if j = 0 then 0 else m (j - 1)) + 1) +
            ((if j = 0 then 0 else m (j - 1)) + 1) ≤ bhi
          omega
        · show 0 < (if j = 0 then 0 else m (j - 1)) + 1
          omega
      · rw [if_neg hlt]
        exact hbest

/-- The outer DP loop preserves the bounds on the running best. -/
theorem flmOuter_bnd (a b : List Char) (alo blo bhi ahi : Nat) :
    ∀ count i (m : Nat → Nat) (best : Flm), i + count = ahi → alo ≤ i →
      MapBnd alo blo i m → FlmBnd alo ahi blo bhi best →
      FlmBnd alo ahi blo bhi (flmOuter a b blo bhi i count m best) := by
  intro count
  induction count with
  | zero =>
    intro i m best _ _ _ hbest
    rw [flmOuter_zero]
    exact hbest
  | succ c ih =>
    intro i m best hi him hm hbest
    rw [flmOuter_succ]
    have hjs : ∀ j ∈ (b2jOf b (a.getD i ' ')).filter
        (fun j => decide (blo ≤ j) && decide (j < bhi)), blo ≤ j ∧ j < bhi := by
      intro j hj
      have := List.of_mem_filter hj
      simp only [Bool.and_eq_true, decide_eq_true_eq] at this
      exact this
    have hstep := flmInner_bnd m i alo ahi blo bhi him (by omega) hm _ (fun _ => 0) best hjs
      (fun _ => ⟨Nat.zero_le _, Nat.zero_le _⟩) hbest
    exact ih (i + 1) _ _ (by omega) (by omega) hstep.1 hstep.2

/-- The backward extension loop preserves the bounds. -/
theorem extendBack_bnd (a b : List Char) (alo blo ahi bhi : Nat) :
    ∀ f st, FlmBnd alo ahi blo bhi st →
      FlmBnd alo ahi blo bhi (extendBack a b alo blo f st) := by
  intro f
  induction f with
  | zero => intro st h; rw [extendBack_zero]; exact h
  | succ f ih =>
    intro st h
    rw [extendBack_succ]
    by_cases hc : alo < st.bi ∧ blo < st.bj ∧
        a.getD (st.bi - 1) ' ' = b.getD (st.bj - 1) ' '
    · rw [if_pos hc]
      apply ih
      obtain ⟨hc1, hc2, -⟩ := hc
      rcases h with ⟨h1, -, -⟩ | ⟨h1, h2, h3, h4, h5⟩
      · exact absurd hc1 (by omega)
      · refine Or.inr ⟨?_, ?_, ?_, ?_, ?_⟩
        · show alo ≤ st.bi - 1
          omega
        · show st.bi - 1 + (st.sz + 1) ≤ ahi
          omega
        · show blo ≤ st.bj - 1
          omega
        · show st.bj - 1 + (st.sz + 1) ≤ bhi
          omega
        · show 0 < st.sz + 1
          omega
    · rw [if_neg hc]
      exact h

/-- The forward extension loop preserves the bounds. -/
theorem extendFwd_bnd (a b : List Char) (alo blo ahi bhi : Nat) :
    ∀ f st, FlmBnd alo ahi blo bhi st →
      FlmBnd alo ahi blo bhi (extendFwd a b ahi bhi f st) := by
  intro f
  induction f with
  | zero => intro st h; rw [extendFwd_zero]; exact h
  | succ f ih =>
    intro st h
    rw [extendFwd_succ]
    by_cases hc : st.bi + st.sz < ahi ∧ st.bj + st.sz < bhi ∧
        a.getD (st.bi + st.sz) ' ' = b.getD (st.bj + st.sz) ' '
    · rw [if_pos hc]
      apply ih
      obtain ⟨hc1, hc2, -⟩ := hc
      have hfields : alo ≤ st.bi ∧ blo ≤ st.bj := by
        rcases h with ⟨h1, h2, -⟩ | ⟨h1, -, h3, -, -⟩
        · exact ⟨by omega, by omega⟩
        · exact ⟨h1, h3⟩
      refine Or.inr ⟨?_, ?_, ?_, ?_, ?_⟩
      · show alo ≤ st.bi
        exact hfields.1
      · show st.bi + (st.sz + 1) ≤ ahi
        omega
      · show blo ≤ st.bj
        exact hfields.2
      · show st.bj + (st.sz + 1) ≤ bhi
        omega
      · show 0 < st.sz + 1
        omega
    · rw [if_neg hc]
      exact h

/-- Bound: `find_longest_match` returns a block within the region (or the initial
empty block). -/
theorem flm_bnd (a b : List Char) (alo ahi blo bhi : Nat) :
    FlmBnd alo ahi blo bhi (findLongestMatch a b alo ahi blo bhi) := by
  unfold findLongestMatch
  apply extendFwd_bnd
  apply extendBack_bnd
  by_cases hle : alo ≤ ahi
  · exact flmOuter_bnd a b alo blo bhi ahi (ahi - alo) alo (fun _ => 0) ⟨alo, blo, 0⟩
      (by omega) (le_refl _) (fun _ => ⟨Nat.zero_le _, Nat.zero_le _⟩)
      (Or.inl ⟨rfl, rfl, rfl⟩)
  · rw [show ahi - alo = 0 from by omega, flmOuter_zero]
    exact Or.inl ⟨rfl, rfl, rfl⟩

/-- At any fuel, the total matched size is bounded by each side of the
region. -/
theorem mtF_le (a b : List Char) :
    ∀ f alo ahi blo bhi, mtF a b f alo ahi blo bhi ≤ ahi - alo ∧
      mtF a b f alo ahi blo bhi ≤ bhi - blo := by
  intro f
  induction f with
  | zero => intro alo ahi blo bhi; rw [mtF_zero]; exact ⟨Nat.zero_le _, Nat.zero_le _⟩
  | succ f ih =>
    intro alo ahi blo bhi
    rw [mtF_succ]
    by_cases hsz : (findLongestMatch a b alo ahi blo bhi).sz = 0
    · rw [if_pos hsz]
      exact ⟨Nat.zero_le _, Nat.zero_le _⟩
    · rw [if_neg hsz]
      have hb := flm_bnd a b alo ahi blo bhi
      rcases hb with ⟨-, -, h0⟩ | ⟨h1, h2, h3, h4, -⟩
      · exact absurd h0 hsz
      · have ihl := ih alo (findLongestMatch a b alo ahi blo bhi).bi blo
          (findLongestMatch a b alo ahi blo bhi).bj
        have ihr := ih ((findLongestMatch a b alo ahi blo bhi).bi +
            (findLongestMatch a b alo ahi blo bhi).sz) ahi
          ((findLongestMatch a b alo ahi blo bhi).bj +
            (findLongestMatch a b alo ahi blo bhi).sz) bhi
        constructor
        · by_cases c1 : alo < (findLongestMatch a b alo ahi blo bhi).bi ∧
              blo < (findLongestMatch a b alo ahi blo bhi).bj
          · rw [if_pos c1]
            by_cases c2 : (findLongestMatch a b alo ahi blo bhi).bi +
                  (findLongestMatch a b alo ahi blo bhi).sz < ahi ∧
                (findLongestMatch a b alo ahi blo bhi).bj +
                  (findLongestMatch a b alo ahi blo bhi).sz < bhi
            · rw [if_pos c2]
              have := ihl.1
              have := ihr.1
              omega
            · rw [if_neg c2]
              have := ihl.1
              omega
          · rw [if_neg c1]
            by_cases c2 : (findLongestMatch a b alo ahi blo bhi).bi +
                  (findLongestMatch a b alo ahi blo bhi).sz < ahi ∧
                (findLongestMatch a b alo ahi blo bhi).bj +
                  (findLongestMatch a b alo ahi blo bhi).sz < bhi
            · rw [if_pos c2]
              have := ihr.1
              omega
            · rw [if_neg c2]
              omega
        · by_cases c1 : alo < (findLongestMatch a b alo ahi blo bhi).bi ∧
              blo < (findLongestMatch a b alo ahi blo bhi).bj
          · rw [if_pos c1]
            by_cases c2 : (findLongestMatch a b alo ahi blo bhi).bi +
                  (findLongestMatch a b alo ahi blo bhi).sz < ahi ∧
                (findLongestMatch a b alo ahi blo bhi).bj +
                  (findLongestMatch a b alo ahi blo bhi).sz < bhi
            · rw [if_pos c2]
              have := ihl.2
              have := ihr.2
              omega
            · rw [if_neg c2]
              have := ihl.2
              omega
          · rw [if_neg c1]
            by_cases c2 : (findLongestMatch a b alo ahi blo bhi).bi +
                  (findLongestMatch a b alo ahi blo bhi).sz < ahi ∧
                (findLongestMatch a b alo ahi blo bhi).bj +
                  (findLongestMatch a b alo ahi blo bhi).sz < bhi
            · rw [if_pos c2]
              have := ihr.2
              omega
            · rw [if_neg c2]
              omega

/-- Bound: `2 * matches ≤ len(a) + len(b)`. -/
theorem matchTotal_le (a b : List Char) : 2 * matchTotal a b ≤ a.length + b.length := by
  unfold matchTotal
  have h := mtF_le a b (a.length + b.length + 1) 0 a.length 0 b.length
  omega

/-- The `ratio` is nonnegative. -/
theorem ratioQ_nonneg (a b : List Char) : 0 ≤ ratioQ a b := by
  unfold ratioQ
  by_cases h : a.length + b.length = 0
  · rw [if_pos h]; norm_num
  · rw [if_neg h, Rat.mkRat_eq_div]
    apply div_nonneg
    · positivity
    · positivity

/-- The `ratio` is at most one. -/
theorem ratioQ_le_one (a b : List Char) : ratioQ a b ≤ 1 := by
  unfold ratioQ
  by_cases h : a.length + b.length = 0
  · rw [if_pos h]
  · rw [if_neg h, Rat.mkRat_eq_div]
    have hpos : (0 : ℚ) < ((a.length + b.length : Nat) : ℚ) := by
      exact_mod_cast Nat.pos_of_ne_zero h
    rw [div_le_one hpos]
    have hle := matchTotal_le a b
    push_cast
    exact_mod_cast hle

/-! ### The diagonal analysis: matching `x` against itself.

When `a = b = x` the DP's best block is always on the diagonal, and the
extension loops then blow it up to the whole region; this yields
`ratio(x, x) = 1`. -/

theorem dChain_zero_eq (x : List Char) (alo ahi : Nat) :
    dChain x alo ahi 0 = if ancB x alo ahi 0 then 1 else 0 := rfl

theorem dChain_succ_eq (x : List Char) (alo ahi j : Nat) :
    dChain x alo ahi (j + 1) =
      if ancB x alo ahi (j + 1) then dChain x alo ahi j + 1 else 0 := rfl

theorem ancB_iff (x : List Char) (alo ahi j : Nat) :
    ancB x alo ahi j = true ↔
      alo ≤ j ∧ j < ahi ∧ isPopular x (x.getD j ' ') = false := by
  unfold ancB
  simp [Bool.and_eq_true, decide_eq_true_eq, Bool.not_eq_true', and_assoc]

theorem dChain_of_not_anc (x : List Char) (alo ahi t : Nat)
    (h : ancB x alo ahi t = false) : dChain x alo ahi t = 0 := by
  cases t with
  | zero => rw [dChain_zero_eq, if_neg (by simp [h])]
  | succ t => rw [dChain_succ_eq, if_neg (by simp [h])]

theorem dChain_of_lt (x : List Char) (alo ahi : Nat) :
    ∀ t, t < alo → dChain x alo ahi t = 0 := by
  intro t ht
  apply dChain_of_not_anc
  unfold ancB
  rw [decide_eq_false (by omega : ¬ alo ≤ t)]
  rfl

theorem dChain_pos (x : List Char) (alo ahi t : Nat) (h : ancB x alo ahi t = true) :
    1 ≤ dChain x alo ahi t := by
  cases t with
  | zero => rw [dChain_zero_eq, if_pos h]
  | succ t => rw [dChain_succ_eq, if_pos h]; omega

theorem dChain_pred (x : List Char) (alo ahi t : Nat) (h : ancB x alo ahi t = true)
    (ht : t ≠ 0) : dChain x alo ahi t = dChain x alo ahi (t - 1) + 1 := by
  cases t with
  | zero => exact absurd rfl ht
  | succ t =>
    rw [dChain_succ_eq, if_pos h]
    rfl

theorem dChain_alo (x : List Char) (alo ahi : Nat) (h : ancB x alo ahi alo = true) :
    dChain x alo ahi alo = 1 := by
  rcases Nat.eq_zero_or_pos alo with hz | hpos
  · rw [hz] at h ⊢
    rw [dChain_zero_eq, if_pos h]
  · rw [dChain_pred x alo ahi alo h (by omega),
      dChain_of_lt x alo ahi (alo - 1) (by omega)]

/-- Membership in the filtered position list of the inner loop, on `x` vs
`x`. -/
theorem mem_js_iff (x : List Char) (alo ahi : Nat) (hlen : ahi ≤ x.length)
    (i : Nat) (him : alo ≤ i) (hia : i < ahi) (j : Nat) :
    (j ∈ (b2jOf x (x.getD i ' ')).filter
        (fun j => decide (alo ≤ j) && decide (j < ahi))) ↔
      x.getD j ' ' = x.getD i ' ' ∧ ancB x alo ahi j = true := by
  rw [List.mem_filter]
  unfold b2jOf
  constructor
  · rintro ⟨hmem, hrange⟩
    by_cases hpop : isPopular x (x.getD i ' ') = true
    · rw [if_pos hpop] at hmem
      exact absurd hmem (List.not_mem_nil j)
    · rw [if_neg hpop] at hmem
      unfold posAll at hmem
      have h2 := List.mem_filter.1 hmem
      have hj : x.getD j ' ' = x.getD i ' ' := by simpa using h2.2
      simp only [Bool.and_eq_true, decide_eq_true_eq] at hrange
      refine ⟨hj, (ancB_iff x alo ahi j).2 ⟨hrange.1, hrange.2, ?_⟩⟩
      rw [hj]
      simpa using hpop
  · rintro ⟨hj, hanc⟩
    rcases (ancB_iff x alo ahi j).1 hanc with ⟨h1, h2, h3⟩
    have hpop : isPopular x (x.getD i ' ') = false := by
      rw [← hj]
      exact h3
    rw [if_neg (by rw [hpop]; simp)]
    refine ⟨?_, by simp only [Bool.and_eq_true, decide_eq_true_eq]; exact ⟨h1, h2⟩⟩
    unfold posAll
    rw [List.mem_filter]
    exact ⟨List.mem_range.2 (by omega), by simpa only [decide_eq_true_eq] using hj⟩

/-- The filtered position list is strictly increasing. -/
theorem js_pairwise (x : List Char) (c : Char) (alo ahi : Nat) :
    ((b2jOf x c).filter
      (fun j => decide (alo ≤ j) && decide (j < ahi))).Pairwise (· < ·) := by
  apply List.Pairwise.filter
  unfold b2jOf
  by_cases hpop : isPopular x c = true
  · rw [if_pos hpop]
    exact List.Pairwise.nil
  · rw [if_neg hpop]
    unfold posAll
    exact (List.pairwise_lt_range _).filter _

/-- The inner loop on `x` vs `x` keeps the best block diagonal: every
off-diagonal chain value is dominated by a diagonal chain already counted.
The invariants: the new map is bounded by the diagonal chains, the best
block is diagonal and its size dominates `dChain t` for `t < i` and — once
position `i` itself has been scanned — for `t = i` as well. -/
theorem flmInner_diag (x : List Char) (alo ahi : Nat)
    (i : Nat) (him : alo ≤ i) (hia : i < ahi)
    (m : Nat → Nat)
    (hm0 : ∀ j, m j ≤ i - alo)
    (hm1 : ∀ j, m j ≤ dChain x alo ahi j)
    (hm2 : ∀ j, m j ≤ dChain x alo ahi (i - 1))
    (hmx : alo < i → dChain x alo ahi (i - 1) ≤ m (i - 1)) :
    ∀ js (nm : Nat → Nat) (best : Flm),
      js.Pairwise (· < ·) →
      (∀ j ∈ js, x.getD j ' ' = x.getD i ' ' ∧ ancB x alo ahi j = true) →
      (∀ j, nm j ≤ dChain x alo ahi j ∧ nm j ≤ dChain x alo ahi i) →
      best.bi = best.bj →
      (∀ t, t < i → dChain x alo ahi t ≤ best.sz) →
      (ancB x alo ahi i = true → i ∈ js ∨ dChain x alo ahi i ≤ best.sz) →
      (ancB x alo ahi i = true → i ∈ js ∨ dChain x alo ahi i ≤ nm i) →
      (∀ j, (flmInner m i js nm best).1 j ≤ dChain x alo ahi j ∧
            (flmInner m i js nm best).1 j ≤ dChain x alo ahi i) ∧
      (flmInner m i js nm best).2.bi = (flmInner m i js nm best).2.bj ∧
      (∀ t, t < i + 1 → dChain x alo ahi t ≤ (flmInner m i js nm best).2.sz) ∧
      (ancB x alo ahi i = true → dChain x alo ahi i ≤ (flmInner m i js nm best).1 i) := by
  intro js
  induction js with
  | nil =>
    intro nm best _ _ hnm hdg hsz hI4 hI5
    rw [flmInner_nil]
    refine ⟨hnm, hdg, ?_, ?_⟩
    · intro t ht
      by_cases hti : t = i
      · subst hti
        by_cases hanc : ancB x alo ahi t = true
        · rcases hI4 hanc with hmem | hle
          · exact absurd hmem (List.not_mem_nil t)
          · exact hle
        · rw [dChain_of_not_anc x alo ahi t (by simpa using hanc)]
          exact Nat.zero_le _
      · exact hsz t (by omega)
    · intro hanc
      rcases hI5 hanc with hmem | hle
      · exact absurd hmem (List.not_mem_nil i)
      · exact hle
  | cons j js ih =>
    intro nm best hpw hjs hnm hdg hsz hI4 hI5
    rw [flmInner_cons]
    obtain ⟨hcj, haj⟩ := hjs j (List.mem_cons_self j js)
    obtain ⟨haj1, haj2, haj3⟩ := (ancB_iff x alo ahi j).1 haj
    have hanci : ancB x alo ahi i = true := by
      refine (ancB_iff x alo ahi i).2 ⟨him, hia, ?_⟩
      rw [← hcj]
      exact haj3
    have hpw' : js.Pairwise (· < ·) := (List.pairwise_cons.1 hpw).2
    have hjgt : ∀ a ∈ js, j < a := (List.pairwise_cons.1 hpw).1
    have hkj : (if j = 0 then 0 else m (j - 1)) + 1 ≤ dChain x alo ahi j := by
      by_cases hj0 : j = 0
      · rw [if_pos hj0, hj0]
        exact dChain_pos x alo ahi 0 (hj0 ▸ haj)
      · rw [if_neg hj0, dChain_pred x alo ahi j haj hj0]
        have := hm1 (j - 1)
        omega
    have hki : (if j = 0 then 0 else m (j - 1)) + 1 ≤ dChain x alo ahi i := by
      by_cases hi0 : i = alo
      · have hpz : (if j = 0 then 0 else m (j - 1)) = 0 := by
          by_cases hj0 : j = 0
          · rw [if_pos hj0]
          · rw [if_neg hj0]
            have := hm0 (j - 1)
            omega
        rw [hpz]
        exact dChain_pos x alo ahi i hanci
      · have hne : i ≠ 0 := by omega
        rw [dChain_pred x alo ahi i hanci hne]
        by_cases hj0 : j = 0
        · rw [if_pos hj0]
          omega
        · rw [if_neg hj0]
          have := hm2 (j - 1)
          omega
    have hnm' : ∀ a, (if a = j then (if j = 0 then 0 else m (j - 1)) + 1 else nm a) ≤
          dChain x alo ahi a ∧
        (if a = j then (if j = 0 then 0 else m (j - 1)) + 1 else nm a) ≤
          dChain x alo ahi i := by
      intro a
      by_cases haj' : a = j
      · rw [if_pos haj', haj']
        exact ⟨hkj, hki⟩
      · rw [if_neg haj']
        exact hnm a
    have hjs' : ∀ a ∈ js, x.getD a ' ' = x.getD i ' ' ∧ ancB x alo ahi a = true :=
      fun a ha => hjs a (List.mem_cons_of_mem j ha)
    rcases Nat.lt_trichotomy j i with hji | hji | hji
    · -- j < i: the candidate is dominated by a diagonal chain seen earlier
      have hnoup : ¬ best.sz < (if j = 0 then 0 else m (j - 1)) + 1 := by
        have h1 := hsz j hji
        omega
      rw [if_neg hnoup]
      refine ih _ best hpw' hjs' (fun a => hnm' a) hdg hsz ?_ ?_
      · intro hanc
        rcases hI4 hanc with hmem | hle
        · rcases List.mem_cons.1 hmem with heq | hmem'
          · omega
          · exact Or.inl hmem'
        · exact Or.inr hle
      · intro hanc
        rcases hI5 hanc with hmem | hle
        · rcases List.mem_cons.1 hmem with heq | hmem'
          · omega
          · exact Or.inl hmem'
        · refine Or.inr ?_
          rw [if_neg (by omega : ¬ i = j)]
          exact hle
    · -- j = i: the diagonal candidate, with value exactly `dChain i`
      have hkex : dChain x alo ahi i ≤ (if j = 0 then 0 else m (j - 1)) + 1 := by
        by_cases hi0 : i = alo
        · have h1 : dChain x alo ahi i = 1 := by
            rw [hi0]
            exact dChain_alo x alo ahi (hi0 ▸ hanci)
          rw [h1]
          omega
        · have hne : i ≠ 0 := by omega
          rw [dChain_pred x alo ahi i hanci hne]
          have hj0 : ¬ j = 0 := by omega
          rw [if_neg hj0, hji]
          have := hmx (by omega)
          omega
      by_cases hup : best.sz < (if j = 0 then 0 else m (j - 1)) + 1
      · rw [if_pos hup]
        refine ih _ _ hpw' hjs' (fun a => hnm' a) ?_ ?_ ?_ ?_
        · show i + 1 - ((if j = 0 then 0 else m (j - 1)) + 1) =
            j + 1 - ((if j = 0 then 0 else m (j - 1)) + 1)
          omega
        · intro t ht
          have h1 := hsz t ht
          show dChain x alo ahi t ≤ (if j = 0 then 0 else m (j - 1)) + 1
          omega
        · intro _
          refine Or.inr ?_
          show dChain x alo ahi i ≤ (if j = 0 then 0 else m (j - 1)) + 1
          exact hkex
        · intro _
          refine Or.inr ?_
          rw [if_pos (by omega : i = j)]
          exact hkex
      · rw [if_neg hup]
        refine ih _ best hpw' hjs' (fun a => hnm' a) hdg hsz ?_ ?_
        · intro _
          refine Or.inr ?_
          omega
        · intro _
          refine Or.inr ?_
          rw [if_pos (by omega : i = j)]
          exact hkex
    · -- j > i: position i was already scanned (it is not in the tail)
      have hnotin : i ∉ j :: js := by
        intro hmem
        rcases List.mem_cons.1 hmem with heq | hmem'
        · omega
        · exact absurd (hjgt i hmem') (by omega)
      have hIbest : dChain x alo ahi i ≤ best.sz := by
        rcases hI4 hanci with hmem | hle
        · exact absurd hmem hnotin
        · exact hle
      have hInm : dChain x alo ahi i ≤ nm i := by
        rcases hI5 hanci with hmem | hle
        · exact absurd hmem hnotin
        · exact hle
      have hnoup : ¬ best.sz < (if j = 0 then 0 else m (j - 1)) + 1 := by omega
      rw [if_neg hnoup]
      refine ih _ best hpw' hjs' (fun a => hnm' a) hdg hsz ?_ ?_
      · intro _
        exact Or.inr hIbest
      · intro _
        refine Or.inr ?_
        rw [if_neg (by omega : ¬ i = j)]
        exact hInm

/-- The outer loop on `x` vs `x` keeps the best block diagonal. -/
theorem flmOuter_diag (x : List Char) (alo ahi : Nat) (hlen : ahi ≤ x.length) :
    ∀ count i (m : Nat → Nat) (best : Flm), i + count = ahi → alo ≤ i →
      MapBnd alo alo i m →
      (∀ j, m j ≤ dChain x alo ahi j) →
      (∀ j, m j ≤ dChain x alo ahi (i - 1)) →
      (alo < i → dChain x alo ahi (i - 1) ≤ m (i - 1)) →
      best.bi = best.bj →
      (∀ t, t < i → dChain x alo ahi t ≤ best.sz) →
      FlmBnd alo ahi alo ahi best →
      (flmOuter x x alo ahi i count m best).bi =
        (flmOuter x x alo ahi i count m best).bj := by
  intro count
  induction count with
  | zero =>
    intro i m best _ _ _ _ _ _ hdg _ _
    rw [flmOuter_zero]
    exact hdg
  | succ c ih =>
    intro i m best hi him hmB hm1 hm2 hmx hdg hsz hFB
    rw [flmOuter_succ]
    have hia : i < ahi := by omega
    have hmem : ∀ j ∈ (b2jOf x (x.getD i ' ')).filter
        (fun j => decide (alo ≤ j) && decide (j < ahi)),
        x.getD j ' ' = x.getD i ' ' ∧ ancB x alo ahi j = true :=
      fun j hj => (mem_js_iff x alo ahi hlen i him hia j).1 hj
    have hself : ancB x alo ahi i = true →
        i ∈ (b2jOf x (x.getD i ' ')).filter
          (fun j => decide (alo ≤ j) && decide (j < ahi)) :=
      fun h => (mem_js_iff x alo ahi hlen i him hia i).2 ⟨rfl, h⟩
    have hdia := flmInner_diag x alo ahi i him hia m (fun j => (hmB j).1) hm1 hm2 hmx
      _ (fun _ => 0) best (js_pairwise x (x.getD i ' ') alo ahi) hmem
      (fun _ => ⟨Nat.zero_le _, Nat.zero_le _⟩) hdg hsz
      (fun h => Or.inl (hself h)) (fun h => Or.inl (hself h))
    have hbnd := flmInner_bnd m i alo ahi alo ahi him hia hmB
      ((b2jOf x (x.getD i ' ')).filter (fun j => decide (alo ≤ j) && decide (j < ahi)))
      (fun _ => 0) best
      (fun j hj => by
        have := List.of_mem_filter hj
        simp only [Bool.and_eq_true, decide_eq_true_eq] at this
        exact this)
      (fun _ => ⟨Nat.zero_le _, Nat.zero_le _⟩) hFB
    refine ih (i + 1) _ _ (by omega) (by omega) hbnd.1
      (fun j => (hdia.1 j).1) (fun j => (hdia.1 j).2) ?_ hdia.2.1 hdia.2.2.1 hbnd.2
    intro _
    by_cases hanc : ancB x alo ahi i = true
    · exact hdia.2.2.2 hanc
    · rw [show i + 1 - 1 = i from rfl,
        dChain_of_not_anc x alo ahi i (by simpa using hanc)]
      exact Nat.zero_le _

/-- The backward extension on a diagonal block slides it down to `alo`. -/
theorem extendBack_diag (x : List Char) (alo : Nat) :
    ∀ f st, st.bi = st.bj → alo ≤ st.bi → st.bi ≤ f →
      extendBack x x alo alo f st = ⟨alo, alo, st.sz + (st.bi - alo)⟩ := by
  intro f
  induction f with
  | zero =>
    intro st hd hge hle
    rw [extendBack_zero]
    rcases st with ⟨bi, bj, sz⟩
    simp only [Flm.mk.injEq]
    simp only at hd hge hle
    refine ⟨by omega, by omega, by omega⟩
  | succ f ih =>
    intro st hd hge hle
    rw [extendBack_succ]
    by_cases hc : alo < st.bi
    · rw [if_pos ⟨hc, by rw [← hd]; exact hc, by rw [hd]⟩]
      rw [ih ⟨st.bi - 1, st.bj - 1, st.sz + 1⟩ (by show st.bi - 1 = st.bj - 1; omega)
        (by show alo ≤ st.bi - 1; omega) (by show st.bi - 1 ≤ f; omega)]
      simp only [Flm.mk.injEq]
      refine ⟨trivial, trivial, ?_⟩
      show st.sz + 1 + (st.bi - 1 - alo) = st.sz + (st.bi - alo)
      omega
    · rw [if_neg (by rintro ⟨h1, -, -⟩; exact hc h1)]
      rcases st with ⟨bi, bj, sz⟩
      simp only [Flm.mk.injEq]
      simp only at hd hge hc
      refine ⟨by omega, by omega, by omega⟩

/-- The forward extension on a diagonal block stretches it to `ahi`. -/
theorem extendFwd_diag (x : List Char) (ahi : Nat) :
    ∀ f st, st.bi = st.bj → st.bi + st.sz ≤ ahi → ahi - (st.bi + st.sz) ≤ f →
      extendFwd x x ahi ahi f st = ⟨st.bi, st.bj, st.sz + (ahi - (st.bi + st.sz))⟩ := by
  intro f
  induction f with
  | zero =>
    intro st hd hge hle
    rw [extendFwd_zero]
    rcases st with ⟨bi, bj, sz⟩
    simp only [Flm.mk.injEq]
    simp only at hd hge hle
    refine ⟨trivial, trivial, by omega⟩
  | succ f ih =>
    intro st hd hge hle
    rw [extendFwd_succ]
    by_cases hc : st.bi + st.sz < ahi
    · rw [if_pos ⟨hc, by rw [← hd]; exact hc, by rw [hd]⟩]
      rw [ih ⟨st.bi, st.bj, st.sz + 1⟩ (by show st.bi = st.bj; exact hd)
        (by show st.bi + (st.sz + 1) ≤ ahi; omega)
        (by show ahi - (st.bi + (st.sz + 1)) ≤ f; omega)]
      simp only [Flm.mk.injEq]
      refine ⟨trivial, trivial, ?_⟩
      show st.sz + 1 + (ahi - (st.bi + (st.sz + 1))) = st.sz + (ahi - (st.bi + st.sz))
      omega
    · rw [if_neg (by rintro ⟨h1, -, -⟩; exact hc h1)]
      rcases st with ⟨bi, bj, sz⟩
      simp only [Flm.mk.injEq]
      simp only at hd hge hc
      refine ⟨trivial, trivial, by omega⟩

theorem extendBack_stay (a b : List Char) (alo blo s : Nat) :
    ∀ f, extendBack a b alo blo f ⟨alo, blo, s⟩ = ⟨alo, blo, s⟩ := by
  intro f
  cases f with
  | zero => rw [extendBack_zero]
  | succ f =>
    rw [extendBack_succ,
      if_neg (by rintro ⟨h1, -, -⟩; exact absurd h1 (lt_irrefl alo))]

/-- Unfolding of `findLongestMatch` with the let bindings resolved. -/
theorem findLongestMatch_eq (a b : List Char) (alo ahi blo bhi : Nat) :
    findLongestMatch a b alo ahi blo bhi =
      extendFwd a b ahi bhi
        (ahi - ((extendBack a b alo blo
            (flmOuter a b blo bhi alo (ahi - alo) (fun _ => 0) ⟨alo, blo, 0⟩).bi
            (flmOuter a b blo bhi alo (ahi - alo) (fun _ => 0) ⟨alo, blo, 0⟩)).bi +
          (extendBack a b alo blo
            (flmOuter a b blo bhi alo (ahi - alo) (fun _ => 0) ⟨alo, blo, 0⟩).bi
            (flmOuter a b blo bhi alo (ahi - alo) (fun _ => 0) ⟨alo, blo, 0⟩)).sz))
        (extendBack a b alo blo
          (flmOuter a b blo bhi alo (ahi - alo) (fun _ => 0) ⟨alo, blo, 0⟩).bi
          (flmOuter a b blo bhi alo (ahi - alo) (fun _ => 0) ⟨alo, blo, 0⟩)) := rfl

/-- On `x` vs `x`, `find_longest_match` returns the whole region. -/
theorem flm_diag (x : List Char) (alo ahi : Nat) (hlen : ahi ≤ x.length) :
    findLongestMatch x x alo ahi alo ahi = ⟨alo, alo, ahi - alo⟩ := by
  rw [findLongestMatch_eq]
  by_cases hle : alo ≤ ahi
  · have hdg : (flmOuter x x alo ahi alo (ahi - alo) (fun _ => 0) ⟨alo, alo, 0⟩).bi =
        (flmOuter x x alo ahi alo (ahi - alo) (fun _ => 0) ⟨alo, alo, 0⟩).bj :=
      flmOuter_diag x alo ahi hlen (ahi - alo) alo (fun _ => 0) ⟨alo, alo, 0⟩
        (by omega) (le_refl _) (fun _ => ⟨Nat.zero_le _, Nat.zero_le _⟩)
        (fun _ => Nat.zero_le _) (fun _ => Nat.zero_le _)
        (fun h => absurd h (lt_irrefl alo)) rfl
        (fun t ht => by rw [dChain_of_lt x alo ahi t ht])
        (Or.inl ⟨rfl, rfl, rfl⟩)
    have hbnd : FlmBnd alo ahi alo ahi
        (flmOuter x x alo ahi alo (ahi - alo) (fun _ => 0) ⟨alo, alo, 0⟩) :=
      flmOuter_bnd x x alo alo ahi ahi (ahi - alo) alo (fun _ => 0) ⟨alo, alo, 0⟩
        (by omega) (le_refl _) (fun _ => ⟨Nat.zero_le _, Nat.zero_le _⟩)
        (Or.inl ⟨rfl, rfl, rfl⟩)
    have h1 : alo ≤ (flmOuter x x alo ahi alo (ahi - alo) (fun _ => 0) ⟨alo, alo, 0⟩).bi := by
      rcases hbnd with ⟨e1, -, -⟩ | ⟨e1, -, -, -, -⟩
      · omega
      · exact e1
    have h2 : (flmOuter x x alo ahi alo (ahi - alo) (fun _ => 0) ⟨alo, alo, 0⟩).bi +
        (flmOuter x x alo ahi alo (ahi - alo) (fun _ => 0) ⟨alo, alo, 0⟩).sz ≤ ahi := by
      rcases hbnd with ⟨e1, -, e3⟩ | ⟨-, e2, -, -, -⟩
      · omega
      · exact e2
    rw [extendBack_diag x alo _ _ hdg h1 (le_refl _)]
    rw [extendFwd_diag x ahi _ ⟨alo, alo, _⟩ rfl
      (by
        show alo + ((flmOuter x x alo ahi alo (ahi - alo) (fun _ => 0) ⟨alo, alo, 0⟩).sz +
          ((flmOuter x x alo ahi alo (ahi - alo) (fun _ => 0) ⟨alo, alo, 0⟩).bi - alo)) ≤ ahi
        omega)
      (le_refl _)]
    simp only [Flm.mk.injEq]
    refine ⟨trivial, trivial, ?_⟩
    show (flmOuter x x alo ahi alo (ahi - alo) (fun _ => 0) ⟨alo, alo, 0⟩).sz +
        ((flmOuter x x alo ahi alo (ahi - alo) (fun _ => 0) ⟨alo, alo, 0⟩).bi - alo) +
        (ahi - (alo +
          ((flmOuter x x alo ahi alo (ahi - alo) (fun _ => 0) ⟨alo, alo, 0⟩).sz +
          ((flmOuter x x alo ahi alo (ahi - alo) (fun _ => 0) ⟨alo, alo, 0⟩).bi - alo)))) =
        ahi - alo
    omega
  · rw [show ahi - alo = 0 from by omega, flmOuter_zero, extendBack_stay]
    rw [show ahi - ((⟨alo, alo, 0⟩ : Flm).bi + (⟨alo, alo, 0⟩ : Flm).sz) = 0 from by
      show ahi - (alo + 0) = 0
      omega]
    rw [extendFwd_zero]

/-- Diagonal: `matches(x, x) = len(x)`: the single diagonal block covers everything. -/
theorem matchTotal_self (x : List Char) : matchTotal x x = x.length := by
  unfold matchTotal
  rw [mtF_succ, flm_diag x 0 x.length (le_refl _)]
  by_cases hL : x.length = 0
  · rw [if_pos (show (⟨0, 0, x.length - 0⟩ : Flm).sz = 0 from by
      show x.length - 0 = 0
      omega)]
    omega
  · rw [if_neg (show ¬ (⟨0, 0, x.length - 0⟩ : Flm).sz = 0 from by
      show ¬ x.length - 0 = 0
      omega)]
    rw [if_neg (show ¬ (0 < (⟨0, 0, x.length - 0⟩ : Flm).bi ∧
        0 < (⟨0, 0, x.length - 0⟩ : Flm).bj) from by
      show ¬ (0 < 0 ∧ 0 < 0)
      omega)]
    rw [if_neg (show ¬ ((⟨0, 0, x.length - 0⟩ : Flm).bi + (⟨0, 0, x.length - 0⟩ : Flm).sz <
          x.length ∧
        (⟨0, 0, x.length - 0⟩ : Flm).bj + (⟨0, 0, x.length - 0⟩ : Flm).sz < x.length) from by
      show ¬ (0 + (x.length - 0) < x.length ∧ 0 + (x.length - 0) < x.length)
      omega)]
    show 0 + (x.length - 0) + 0 = x.length
    omega

/-- Identity: `ratio(x, x) = 1.0` (also when `x` is empty). -/
theorem similarityScore_self (s : String) : similarityScore s s = 1 := by
  unfold similarityScore ratioQ
  by_cases h : (pyLowerL s.data).length + (pyLowerL s.data).length = 0
  · rw [if_pos h]
  · rw [if_neg h, matchTotal_self, Rat.mkRat_eq_div]
    have hpos : (0 : ℚ) <
        (((pyLowerL s.data).length + (pyLowerL s.data).length : Nat) : ℚ) := by
      exact_mod_cast Nat.pos_of_ne_zero h
    rw [div_eq_one_iff_eq (ne_of_gt hpos)]
    push_cast
    ring

/-! ### Case-insensitivity -/

theorem pyLowerChar_toNat_upper (c : Char) (h : 65 ≤ c.toNat ∧ c.toNat ≤ 90) :
    (pyLowerChar c).toNat = c.toNat + 32 := by
  unfold pyLowerChar
  rw [dif_pos h]
  show (c.val + 32).toNat = c.toNat + 32
  rw [UInt32.toNat_add]
  have h1 : ((32 : UInt32)).toNat = 32 := rfl
  have hs : UInt32.size = 4294967296 := rfl
  have h2 : c.val.toNat ≤ 90 := h.2
  rw [h1, hs]
  exact Nat.mod_eq_of_lt (by omega)

theorem pyLowerChar_not_upper (c : Char) (h : ¬ (65 ≤ c.toNat ∧ c.toNat ≤ 90)) :
    pyLowerChar c = c := by
  unfold pyLowerChar
  rw [dif_neg h]

theorem pyLowerChar_idem (c : Char) : pyLowerChar (pyLowerChar c) = pyLowerChar c := by
  by_cases h : 65 ≤ c.toNat ∧ c.toNat ≤ 90
  · apply pyLowerChar_not_upper
    rw [pyLowerChar_toNat_upper c h]
    omega
  · rw [pyLowerChar_not_upper c h]
    exact pyLowerChar_not_upper c h

theorem pyLowerL_idem (s : List Char) : pyLowerL (pyLowerL s) = pyLowerL s := by
  unfold pyLowerL
  rw [List.map_map]
  have hcomp : pyLowerChar ∘ pyLowerChar = pyLowerChar := funext pyLowerChar_idem
  rw [hcomp]

/-- Lowercasing the inputs first does not change the score: the comparison
is case-insensitive. -/
theorem similarity_lower_idem (a b : String) :
    similarityScore a b = similarityScore (pyLowerStr a) (pyLowerStr b) := by
  unfold similarityScore pyLowerStr
  show ratioQ (pyLowerL a.data) (pyLowerL b.data) =
    ratioQ (pyLowerL (pyLowerL a.data)) (pyLowerL (pyLowerL b.data))
  rw [pyLowerL_idem, pyLowerL_idem]

/-- C9 counterexample: `similarity` is *not* symmetric.
`SequenceMatcher`'s greedy block decomposition is order-dependent:
`similarity("tide", "diet") = 0.25` but `similarity("diet", "tide") = 0.5`
(checked against CPython's `difflib`). -/
theorem similarity_asymmetry_cex :
    similarityScore "tide" "diet" ≠ similarityScore "diet" "tide" ∧
    similarityScore "tide" "diet" = mkRat 1 4 ∧
    similarityScore "diet" "tide" = mkRat 1 2 := by
  refine ⟨by decide, by decide, by decide⟩

/-- C9 (amended): `similarity` always lies in `[0, 1]`, equals `1.0` on
identical inputs, and is case-insensitive (the inputs are compared
lowercased, so lowercasing them first changes nothing) — but it is *not*
symmetric in general (see the counterexample). -/
theorem similarity_contract (a b x : String) :
    0 ≤ similarityScore a b ∧ similarityScore a b ≤ 1 ∧
    similarityScore x x = 1 ∧
    similarityScore a b = similarityScore (pyLowerStr a) (pyLowerStr b) :=
  ⟨ratioQ_nonneg (pyLowerL a.data) (pyLowerL b.data),
   ratioQ_le_one (pyLowerL a.data) (pyLowerL b.data),
   similarityScore_self x, similarity_lower_idem a b⟩

end RosieSync

